import Mathlib

/-!
Verification of the semantic memory core of the Table_Pet repository
(`project/app/memory_system.py`), as a shallow embedding in Lean.

Conventions of the embedding:
  * Python strings are Lean `String`s; all positional string manipulation
    (slicing, substring search) is done on `String.data : List Char`, so a
    "position" is a character index exactly as in Python.
  * Python floats (similarity scores, timestamps) are modelled as `ℚ`.
  * The sentence-transformer embedding function is an abstract parameter
    `embed : String → List ℚ`; the FAISS `IndexFlatIP` holds the list of
    vectors that were added to it and answers exact inner-product top-k
    queries sorted by descending score (ties by insertion order).  In
    fallback mode (`hasModel = false`) the vectors appended to the index
    are the `np.random.rand` draws, which the caller supplies explicitly
    as arguments, and search ignores the index entirely (the Python code
    scores by `_simple_similarity` in that mode).
  * `time.time()` / `time.strftime` values are supplied by the caller of
    each operation as explicit `now` / `nowStr` arguments.
  * Python dict metadata is modelled by the inductive `Meta`: a live
    record's dict always holds a `timestamp`, a `created_at` string and
    the caller-supplied remainder; a soft-deleted slot's dict is replaced
    wholesale by the deletion marker.
-/

namespace TablePet

/-- Whitespace predicate used by Python `str.strip()` / `str.split()`
(the ASCII whitespace characters). -/
def isPyWs (c : Char) : Bool :=
  c = ' ' || c = '\t' || c = '\n' || c = '\r' || c = '\x0b' || c = '\x0c'

/-- Drop leading characters satisfying `p`. -/
def dropLeading (p : Char → Bool) : List Char → List Char
  | [] => []
  | c :: cs => if p c then dropLeading p cs else c :: cs

/-- Python `s.strip()` on a character list: remove leading and trailing
whitespace. -/
def pyStripList (l : List Char) : List Char :=
  (dropLeading isPyWs ((dropLeading isPyWs l.reverse).reverse))

/-- Python `s.strip()`. -/
def pyStrip (s : String) : String :=
  String.mk (pyStripList s.data)

/-- Python `s.strip(chars)`: remove leading and trailing characters that
belong to `cs`. -/
def pyStripChars (cs : List Char) (s : String) : String :=
  String.mk (dropLeading (fun c => cs.contains c) ((dropLeading (fun c => cs.contains c) s.data.reverse).reverse))

/-- Python `s.lower()` restricted to the alphabets that occur in this
program (ASCII letters and CJK characters, which `lower` leaves alone). -/
def pyLower (s : String) : String :=
  String.mk (s.data.map Char.toLower)

/-- Accumulator loop of `pySplit`: split at whitespace, collecting the
current word in reverse. -/
def splitWsAux : List Char → List Char → List String
  | [], acc => if acc = [] then [] else [String.mk acc.reverse]
  | c :: cs, acc =>
    if isPyWs c then
      if acc = [] then splitWsAux cs []
      else String.mk acc.reverse :: splitWsAux cs []
    else splitWsAux cs (c :: acc)

/-- Python `s.split()` (split on whitespace runs, no empty fields). -/
def pySplit (s : String) : List String :=
  splitWsAux s.data []

/-- Test whether `needle` occurs at the head of `hay`. -/
def startsWithL (needle hay : List Char) : Bool :=
  needle.isPrefixOf hay

/-- Index of the leftmost occurrence of `needle` in `hay` (`none` if it
does not occur).  An empty needle matches at position `0`, as in Python. -/
def findSub (needle : List Char) : List Char → Option Nat
  | [] => if needle.isEmpty then some 0 else none
  | c :: cs =>
    if needle.isPrefixOf (c :: cs) then some 0
    else (findSub needle cs).map (· + 1)

/-- Index of the rightmost occurrence of `needle` in `hay`. -/
def findLastSub (needle hay : List Char) : Option Nat :=
  (findSub needle.reverse hay.reverse).map
    (fun j => hay.length - needle.length - j)

/-- Python `needle in hay` on strings. -/
def strContains (hay needle : String) : Bool :=
  (findSub needle.data hay.data).isSome

/-- Python `hay.startswith(needle)`. -/
def strStartsWith (hay needle : String) : Bool :=
  needle.data.isPrefixOf hay.data

/-- Python `hay.endswith(needle)`. -/
def strEndsWith (hay needle : String) : Bool :=
  needle.data.isSuffixOf hay.data

/-- Python `text.split(sep, 1)[1]`: the remainder of `text` after the
first occurrence of `sep` (meaningful only when `sep` occurs). -/
def afterFirst (text sep : String) : String :=
  match findSub sep.data text.data with
  | some i => String.mk (text.data.drop (i + sep.data.length))
  | none => text

/-- Metadata dictionary of a stored record.  A live record carries the
caller-supplied key/value remainder plus the stamped `timestamp` and
`created_at`; a soft-deleted slot's dict is the deletion marker written
by `delete_memory_by_id`. -/
inductive Meta where
  | active (timestamp : ℚ) (createdAt : String) (extra : List (String × String))
  | tomb (deletedAt : ℚ) (deletedAtStr : String)
deriving DecidableEq, Repr, Inhabited

/-- Python `metadata.get('timestamp', 0)` (the deletion marker has no
`timestamp` key, so it yields the default). -/
def Meta.tsGet : Meta → ℚ
  | .active ts _ _ => ts
  | .tomb _ _ => 0

/-- Caller-supplied metadata argument of `add_memory`: an optional dict,
holding an optional `timestamp` entry and the remaining key/value pairs. -/
structure MetaIn where
  timestamp? : Option ℚ
  extra : List (String × String)
deriving DecidableEq, Repr, Inhabited

/-- State of an `AdvancedMemorySystem` instance: the three parallel lists,
the id counter, the soft-delete set, and the FAISS index contents (one
vector per insertion). -/
structure MemState where
  memories : List String
  metadata : List Meta
  memory_ids : List Nat
  next_id : Nat
  deleted_ids : Finset Nat
  index : List (List ℚ)
deriving DecidableEq

/-- Fresh store, as built by `AdvancedMemorySystem.__init__`. -/
def initState : MemState :=
  { memories := [], metadata := [], memory_ids := [], next_id := 0,
    deleted_ids := ∅, index := [] }

/-- Ambient configuration of a store instance: whether the sentence
transformer loaded (`hasModel`), its output dimension, and the embedding
function itself (abstract; only used when `hasModel` is true). -/
structure Ctx where
  hasModel : Bool
  dimension : Nat
  embed : String → List ℚ

/-- Sentinel text written into a soft-deleted slot. -/
def deletedSentinel : String := "[DELETED]"

/-- Inner product of two vectors (`np.dot` for equal-length queries; FAISS
inner-product scoring). -/
def dot (a b : List ℚ) : ℚ :=
  ((a.zip b).map (fun p => p.1 * p.2)).sum

/-- Result record produced by `search_memories`. -/
structure SearchResult where
  id : Nat
  text : String
  score : ℚ
  metadata : Meta
  index : Nat
deriving DecidableEq, Repr

/-- Jaccard word-set similarity, `AdvancedMemorySystem._simple_similarity`. -/
def simpleSimilarity (text1 text2 : String) : ℚ :=
  let words1 := (pySplit (pyLower text1)).toFinset
  let words2 := (pySplit (pyLower text2)).toFinset
  if words1 = ∅ ∧ words2 = ∅ then 0
  else
    let inter := words1 ∩ words2
    let union := words1 ∪ words2
    if union ≠ ∅ then (inter.card : ℚ) / (union.card : ℚ) else 0

/-- Comparator used to model FAISS inner-product search order: descending
score, ties by ascending index (insertion order). -/
def faissLe (a b : ℚ × Nat) : Bool :=
  (b.1 < a.1) || (a.1 = b.1 && a.2 ≤ b.2)

/-- Comparator modelling Python `list.sort(reverse=True)` on `(score, i)`
tuples: descending lexicographic order. -/
def revLexLe (a b : ℚ × Nat) : Bool :=
  (b.1 < a.1) || (a.1 = b.1 && b.2 ≤ a.2)

/-- FAISS `IndexFlatIP.search`: score every stored vector against the
query by inner product, sort descending, return the first `k` hits as
`(score, index)` pairs. -/
def indexSearch (index : List (List ℚ)) (qv : List ℚ) (k : Nat) : List (ℚ × Nat) :=
  let pairs := (List.range index.length).map (fun i => (dot qv (index.getD i []), i))
  (pairs.mergeSort faissLe).take k

/-- Acceptance test applied to a candidate `(score, idx)` inside the
result loop of `search_memories`: the index must be in range, the slot
must not be soft-deleted or hold the sentinel, and the score must clear
the threshold. -/
def accept (st : MemState) (t : ℚ) (c : ℚ × Nat) : Bool :=
  decide (c.2 < st.memories.length) &&
  !(decide (st.memory_ids.getD c.2 0 ∈ st.deleted_ids) ||
    decide (st.memories.getD c.2 "" = deletedSentinel)) &&
  decide (t ≤ c.1)

/-- Build the result record appended for an accepted candidate. -/
def mkRes (st : MemState) (c : ℚ × Nat) : SearchResult :=
  { id := st.memory_ids.getD c.2 0
    text := st.memories.getD c.2 ""
    score := c.1
    metadata := st.metadata.getD c.2 default
    index := c.2 }

/-- Result-collection loop of `search_memories`: walk the candidates in
order, skip out-of-range / deleted / sentinel slots, append candidates
whose score clears the threshold, and stop as soon as `top_k` results
have been accumulated. -/
def collectAux (st : MemState) (t : ℚ) (k : Nat) :
    List (ℚ × Nat) → List SearchResult → List SearchResult
  | [], acc => acc
  | c :: rest, acc =>
    if c.2 < st.memories.length then
      if st.memory_ids.getD c.2 0 ∈ st.deleted_ids ∨
          st.memories.getD c.2 "" = deletedSentinel then
        collectAux st t k rest acc
      else if t ≤ c.1 then
        if k ≤ acc.length + 1 then acc ++ [mkRes st c]
        else collectAux st t k rest (acc ++ [mkRes st c])
      else
        collectAux st t k rest acc
    else
      collectAux st t k rest acc

/-- Candidate list handed to the result loop by `search_memories`.  With a
model, it is the FAISS top-`min(2·top_k, len(memories))` hits for the
embedded query; without one, it is the `(Jaccard, position)` pairs over
the non-deleted records, sorted descending (Python tuple sort with
`reverse=True`), truncated the same way. -/
def searchCandidates (ctx : Ctx) (st : MemState) (q : String) (k : Nat) :
    List (ℚ × Nat) :=
  if ctx.hasModel then
    indexSearch st.index (ctx.embed q) (min (k * 2) st.memories.length)
  else
    let sims := (List.range st.memories.length).filterMap (fun i =>
      if st.memory_ids.getD i 0 ∉ st.deleted_ids ∧
          st.memories.getD i "" ≠ deletedSentinel then
        some (simpleSimilarity q (st.memories.getD i ""), i)
      else none)
    (sims.mergeSort revLexLe).take (min (k * 2) sims.length)

/-- Model of `AdvancedMemorySystem.search_memories`. -/
def searchMemories (ctx : Ctx) (st : MemState) (q : String) (k : Nat) (t : ℚ) :
    List SearchResult :=
  if st.memories.length = 0 then []
  else collectAux st t k (searchCandidates ctx st q k) []

/-- Model of `AdvancedMemorySystem.add_memory`.  Returns the Python return
value (`-1` on rejection, the fresh id otherwise) and the new state.  The
`rand` argument supplies the `np.random.rand` draw used in fallback mode;
`now` / `nowStr` supply `time.time()` and `time.strftime(...)`. -/
def addMemory (ctx : Ctx) (st : MemState) (text : String) (md : Option MetaIn)
    (now : ℚ) (nowStr : String) (rand : List ℚ) : Int × MemState :=
  if pyStrip text = "" then (-1, st)
  else
    let vec := if ctx.hasModel then ctx.embed text else rand
    let m := match md with | some m => m | none => ⟨none, []⟩
    let ts := match m.timestamp? with | some ts => ts | none => now
    (((st.next_id : Nat) : Int),
      { memories := st.memories ++ [text]
        metadata := st.metadata ++ [Meta.active ts nowStr m.extra]
        memory_ids := st.memory_ids ++ [st.next_id]
        next_id := st.next_id + 1
        deleted_ids := st.deleted_ids
        index := st.index ++ [vec] })

/-- Model of `AdvancedMemorySystem.delete_memory_by_id`: soft delete.  The
`memory_ids.index` lookup raises exactly when the id is absent, which is
the `False` branch. -/
def deleteById (st : MemState) (x : Nat) (now : ℚ) (nowStr : String) :
    Bool × MemState :=
  match st.memory_ids.findIdx? (fun i => i = x) with
  | none => (false, st)
  | some pos =>
    (true,
      { st with
        deleted_ids := insert x st.deleted_ids
        memories := st.memories.set pos deletedSentinel
        metadata := st.metadata.set pos (Meta.tomb now nowStr) })

/-- Model of `AdvancedMemorySystem.delete_memories_by_content`: search
once with `top_k = 10`, then soft-delete each hit (looking the id up by
the hit's index in the live state, as the Python loop does). -/
def deleteMemoriesByContent (ctx : Ctx) (st : MemState) (searchText : String)
    (t : ℚ) (now : ℚ) (nowStr : String) : List Nat × MemState :=
  let hits := searchMemories ctx st searchText 10 t
  hits.foldl
    (fun (p : List Nat × MemState) r =>
      let mid := p.2.memory_ids.getD r.index 0
      let d := deleteById p.2 mid now nowStr
      (if d.1 then p.1 ++ [mid] else p.1, d.2))
    ([], st)

/-- Model of `AdvancedMemorySystem.delete_recent_memories`: walk the
id/metadata pairs, skip already-deleted ids, soft-delete every record
whose stamped timestamp is newer than the cutoff. -/
def deleteRecentMemories (st : MemState) (hours : Nat) (now : ℚ)
    (nowStr : String) : List Nat × MemState :=
  let cutoff : ℚ := now - (hours : ℚ) * 3600
  (st.memory_ids.zip st.metadata).foldl
    (fun (p : List Nat × MemState) im =>
      if im.1 ∈ p.2.deleted_ids then p
      else if cutoff < im.2.tsGet then
        let d := deleteById p.2 im.1 now nowStr
        (if d.1 then p.1 ++ [im.1] else p.1, d.2)
      else p)
    ([], st)

/-- Model of `AdvancedMemorySystem.cleanup_deleted_memories`: no-op when
nothing is soft-deleted, otherwise keep only slots whose id is not in
`deleted_ids` and whose text is not the sentinel, clear `deleted_ids`,
and rebuild the index from the survivors (re-embedding each text with the
model, or `np.random.rand` rows — supplied as `rands` — without one). -/
def cleanupDeletedMemories (ctx : Ctx) (st : MemState) (rands : Nat → List ℚ) :
    MemState :=
  if st.deleted_ids = ∅ then st
  else
    let triples := st.memories.zip (st.metadata.zip st.memory_ids)
    let valid := triples.filter
      (fun tr => tr.2.2 ∉ st.deleted_ids ∧ tr.1 ≠ deletedSentinel)
    let mems := valid.map (fun tr => tr.1)
    { memories := mems
      metadata := valid.map (fun tr => tr.2.1)
      memory_ids := valid.map (fun tr => tr.2.2)
      next_id := st.next_id
      deleted_ids := ∅
      index :=
        if ctx.hasModel then mems.map ctx.embed
        else (List.range mems.length).map rands }

/-- Output of `get_memory_stats` (`active` is a Python int difference). -/
structure Stats where
  total : Nat
  active : Int
  deleted : Nat
  cleanup_needed : Bool
deriving DecidableEq, Repr

/-- Model of `AdvancedMemorySystem.get_memory_stats`. -/
def getMemoryStats (st : MemState) : Stats :=
  { total := st.memory_ids.length
    active := (st.memory_ids.length : Int) - (st.deleted_ids.card : Int)
    deleted := st.deleted_ids.card
    cleanup_needed := decide (0 < st.deleted_ids.card) }

/-! Trigger detector (`SmartMemoryTriggerDetector`). -/

/-- Personal-information indicator table, in dict insertion order. -/
def personalIndicators : List (String × List String) :=
  [("身分", ["我叫", "我的名字", "我是", "我的職業", "我在", "我住在", "我來自"]),
   ("偏好", ["我喜歡", "我不喜歡", "我愛", "我討厭", "我傾向", "我偏好"]),
   ("狀態", ["我今年", "歲", "我現在", "我的生日", "我的年齡"]),
   ("經驗", ["我以前", "我曾經", "我記得", "我經歷過", "我做過"]),
   ("計畫", ["我打算", "我計劃", "我想要", "我希望", "提醒我", "記住我要"]),
   ("重要資訊", ["這很重要", "別忘記", "要記住", "記下來", "存起來"])]

/-- Query keyword table. -/
def queryIndicators : List String :=
  ["什麼是", "怎麼", "為什麼", "在哪裡", "什麼時候", "誰是",
   "告訴我", "解釋", "說明", "幫我", "能不能", "可以嗎",
   "你會", "你是", "你的", "你能", "你可以", "你知道"]

/-- Explicit memory-request keyword table. -/
def explicitMemoryRequests : List String :=
  ["記住", "記下", "記錄", "保存", "儲存", "記住這個",
   "別忘記", "要記得", "remember", "save this", "keep in mind"]

/-- Model of `SmartMemoryTriggerDetector._is_query`. -/
def isQuery (text : String) : Bool :=
  let questionStarters := ["什麼", "怎麼", "為什麼", "在哪", "何時", "誰", "哪個", "哪裡"]
  if questionStarters.any (fun q => strStartsWith text q) then true
  else
    let questionPats := ["嗎？", "呢？", "吧？", "？", "嗎", "呢"]
    if questionPats.any (fun q => strEndsWith text q) then true
    else queryIndicators.any (fun ind => strContains text ind)

/-- Model of `SmartMemoryTriggerDetector._check_explicit_memory_request`. -/
def checkExplicitMemoryRequest (text : String) : Option String :=
  explicitMemoryRequests.findSome? (fun kw =>
    if strContains text kw then
      let content := pyStripChars " ：:，,.。".data (afterFirst text kw)
      some (if content ≠ "" then content else text)
    else none)

/-- Model of `SmartMemoryTriggerDetector._check_personal_info`, returning
the category tag and confidence of the first matching indicator. -/
def checkPersonalInfo (text : String) : Option (String × ℚ) :=
  personalIndicators.findSome? (fun cat =>
    if cat.2.any (fun ind => strContains text ind) then
      some ("personal_" ++ cat.1,
        if cat.1 = "身分" ∨ cat.1 = "偏好" then (85 : ℚ) / 100 else (75 : ℚ) / 100)
    else none)

/-- Model of `SmartMemoryTriggerDetector._is_declarative_statement`. -/
def isDeclarativeStatement (text : String) : Bool :=
  let firstPerson := ["我", "我的", "我在", "我會", "我有"]
  let hasFirstPerson := firstPerson.any (fun p => strContains text p)
  let isNotQuestion := !(["？", "?", "嗎", "呢", "吧"].any (fun q => strEndsWith text q))
  let actionVerbs := ["是", "在", "有", "做", "喜歡", "討厭", "住", "工作", "學習"]
  let hasAction := actionVerbs.any (fun v => strContains text v)
  hasFirstPerson && isNotQuestion && hasAction

/-- Model of `SmartMemoryTriggerDetector._is_future_plan`. -/
def isFuturePlan (text : String) : Bool :=
  ["打算", "計劃", "想要", "希望", "準備", "將會", "要", "會",
   "明天", "下週", "下個月", "以後", "等等", "提醒我"].any
    (fun ind => strContains text ind)

/-- Model of `SmartMemoryTriggerDetector._is_important_fact`. -/
def isImportantFact (text : String) : Bool :=
  ["重要", "關鍵", "必須", "一定要", "務必", "千萬", "特別",
   "注意", "記住", "別忘了"].any (fun ind => strContains text ind)

/-- Model of `SmartMemoryTriggerDetector._analyze_sentence_structure`. -/
def analyzeSentenceStructure (text : String) : Option (String × ℚ) :=
  if isDeclarativeStatement text then some ("declarative", (65 : ℚ) / 100)
  else if isFuturePlan text then some ("plan", (8 : ℚ) / 10)
  else if isImportantFact text then some ("important_fact", (7 : ℚ) / 10)
  else none

/-- Outcome of `detect_memory_request`. -/
structure TriggerResult where
  should_store : Bool
  kind : String
  content : Option String
  confidence : ℚ
deriving DecidableEq, Repr

/-- Model of `SmartMemoryTriggerDetector.detect_memory_request`. -/
def detectMemoryRequest (input : String) : TriggerResult :=
  let text := pyStrip input
  if isQuery text then ⟨false, "query", none, (9 : ℚ) / 10⟩
  else
    match checkExplicitMemoryRequest text with
    | some content => ⟨true, "explicit", some content, (95 : ℚ) / 100⟩
    | none =>
      match checkPersonalInfo text with
      | some pm => ⟨true, pm.1, some text, pm.2⟩
      | none =>
        match analyzeSentenceStructure text with
        | some sm => ⟨true, sm.1, some text, sm.2⟩
        | none => ⟨false, "none", none, 0⟩

/-! Deletion-intent detector (`MemoryDeletionDetector`). -/

/-- Shape of the regex patterns compiled by `MemoryDeletionDetector`: a
plain keyword, `A.*B`, or `A.*` (the only forms occurring in its table). -/
inductive DelPat where
  | lit (s : String)
  | litStarLit (a b : String)
  | litStar (a : String)

/-- Ordered pattern list built in `MemoryDeletionDetector.__init__`
(the explicit keywords followed by the compound patterns). -/
def deletionPats : List DelPat :=
  [.lit "刪除", .lit "刪掉", .lit "移除", .lit "忘記", .lit "忘掉", .lit "清除",
   .lit "去掉", .lit "別記得", .lit "不要記得", .lit "取消記憶",
   .lit "delete", .lit "remove", .lit "forget", .lit "erase", .lit "clear",
   .litStarLit "刪除" "記憶", .litStar "忘記我說過", .litStar "不要記得",
   .litStarLit "清除" "資訊", .litStarLit "刪掉" "內容", .litStar "忘記我的"]

/-- End position (character index, relative to the whole text) of the
leftmost, greedy match of a pattern under `re.IGNORECASE`, or `none`. -/
def matchEnd (p : DelPat) (text : String) : Option Nat :=
  let hay := text.data.map Char.toLower
  match p with
  | .lit s =>
    (findSub (s.data.map Char.toLower) hay).map (fun i => i + s.data.length)
  | .litStar a =>
    (findSub (a.data.map Char.toLower) hay).map (fun _ => hay.length)
  | .litStarLit a b =>
    match findSub (a.data.map Char.toLower) hay with
    | none => none
    | some i =>
      let lb := b.data.map Char.toLower
      (findLastSub lb (hay.drop (i + a.data.length))).map
        (fun j => i + a.data.length + j + lb.length)

/-- Model of `MemoryDeletionDetector._extract_deletion_target`, given the
match-end position of the fired pattern. -/
def extractDeletionTarget (text : String) (e : Nat) : Option String :=
  let rem1 := pyStripList (text.data.drop e)
  let rem2 := pyStripList (dropLeading
    (fun c => ("關於about".data).contains c.toLower) rem1)
  let rem3 := pyStripList (dropLeading
    (fun c => ("：:，,.。!！？?".data).contains c) rem2)
  if rem3 = [] then none else some (String.mk rem3)

/-- Outcome of `detect_deletion_request`. -/
structure DeletionInfo where
  is_deletion_request : Bool
  deletion_type : String
  target_content : Option String
  deletion_scope : String
deriving DecidableEq, Repr

/-- Scope qualifier chosen once a pattern fired. -/
def deletionScope (text : String) : String :=
  let low := pyLower text
  if ["全部", "所有", "all", "everything"].any (fun w => strContains low w) then "all"
  else if ["最近", "recent", "剛才", "今天"].any (fun w => strContains low w) then "recent"
  else "specific"

/-- Model of `MemoryDeletionDetector.detect_deletion_request`: the first
pattern (in table order) whose search succeeds decides the outcome. -/
def detectDeletionRequest (text : String) : DeletionInfo :=
  match deletionPats.findSome? (fun p => matchEnd p text) with
  | some e =>
    { is_deletion_request := true
      deletion_type := "explicit"
      target_content := extractDeletionTarget text e
      deletion_scope := deletionScope text }
  | none =>
    { is_deletion_request := false, deletion_type := "none",
      target_content := none, deletion_scope := "none" }

/-! Memory manager (`SmartMemoryManager`). -/

/-- Model of `SmartMemoryManager._delete_all_memories`: collect the ids
not yet soft-deleted, delete each, and return the collected list. -/
def deleteAllMemories (st : MemState) (now : ℚ) (nowStr : String) :
    List Nat × MemState :=
  let allIds := st.memory_ids.filter (fun mid => mid ∉ st.deleted_ids)
  (allIds, allIds.foldl (fun s mid => (deleteById s mid now nowStr).2) st)

/-- Structured result of `process_deletion_request`. -/
structure PDResult where
  success : Bool
  message : String
  deleted_count : Nat
  deleted_ids : List Nat
deriving DecidableEq, Repr

/-- Branch part of `SmartMemoryManager.process_deletion_request`:
everything up to (but not including) the conditional cleanup. -/
def processDeletionCore (ctx : Ctx) (st : MemState) (input : String)
    (now : ℚ) (nowStr : String) : PDResult × MemState :=
  let info := detectDeletionRequest input
  if ¬ info.is_deletion_request then
    (⟨false, "未檢測到刪除請求", 0, []⟩, st)
  else if info.deletion_scope = "all" then
    let d := deleteAllMemories st now nowStr
    (⟨true, "已刪除所有 " ++ toString d.1.length ++ " 條記憶", d.1.length, d.1⟩, d.2)
  else if info.deletion_scope = "recent" then
    let d := deleteRecentMemories st 24 now nowStr
    (⟨true, "已刪除最近 " ++ toString d.1.length ++ " 條記憶", d.1.length, d.1⟩, d.2)
  else
    match info.target_content with
    | some target =>
      let d := deleteMemoriesByContent ctx st target ((7 : ℚ) / 10) now nowStr
      (⟨true,
        "已刪除 " ++ toString d.1.length ++ " 條與「" ++ target ++ "」相關的記憶",
        d.1.length, d.1⟩, d.2)
    | none => (⟨false, "無法確定要刪除的內容", 0, []⟩, st)

/-- Model of `SmartMemoryManager.process_deletion_request`: run the branch
part, then compact exactly when the reported count is positive. -/
def processDeletionRequest (ctx : Ctx) (st : MemState) (input : String)
    (now : ℚ) (nowStr : String) (rands : Nat → List ℚ) : PDResult × MemState :=
  let core := processDeletionCore ctx st input now nowStr
  (core.1,
    if 0 < core.1.deleted_count then cleanupDeletedMemories ctx core.2 rands
    else core.2)

/-! Operation traces over a store. -/

/-- One mutating call on an `AdvancedMemorySystem`, with the ambient
clock values and random draws it consumes supplied as data. -/
inductive Op where
  | add (text : String) (md : Option MetaIn) (now : ℚ) (nowStr : String)
      (rand : List ℚ)
  | delId (x : Nat) (now : ℚ) (nowStr : String)
  | delContent (q : String) (t : ℚ) (now : ℚ) (nowStr : String)
  | delRecent (hours : Nat) (now : ℚ) (nowStr : String)
  | cleanup (rands : Nat → List ℚ)

/-- State transition of one operation (return value discarded). -/
def applyOp (ctx : Ctx) (st : MemState) : Op → MemState
  | .add text md now nowStr rand => (addMemory ctx st text md now nowStr rand).2
  | .delId x now nowStr => (deleteById st x now nowStr).2
  | .delContent q t now nowStr => (deleteMemoriesByContent ctx st q t now nowStr).2
  | .delRecent hours now nowStr => (deleteRecentMemories st hours now nowStr).2
  | .cleanup rands => cleanupDeletedMemories ctx st rands

/-- State after a finite sequence of operations. -/
def applyOps (ctx : Ctx) (st : MemState) (ops : List Op) : MemState :=
  ops.foldl (applyOp ctx) st

/-- Number of `add_memory` calls in a trace that returned a fresh id
rather than the `-1` sentinel. -/
def countAdds (ctx : Ctx) (st : MemState) : List Op → Nat
  | [] => 0
  | op :: ops =>
    (match op with
      | .add text md now nowStr rand =>
        if (addMemory ctx st text md now nowStr rand).1 ≠ -1 then 1 else 0
      | _ => 0) + countAdds ctx (applyOp ctx st op) ops

/-- Does the operation invoke `cleanup_deleted_memories`? -/
def Op.isCleanup : Op → Bool
  | .cleanup _ => true
  | _ => false

/-- Alignment of the parallel structures: equal lengths of the three
lists and of the vector index. -/
def Aligned (st : MemState) : Prop :=
  st.memories.length = st.metadata.length ∧
  st.memories.length = st.memory_ids.length ∧
  st.memories.length = st.index.length

instance : DecidablePred Aligned := fun st => by
  unfold Aligned; infer_instance

/-- Well-formedness facts about the id bookkeeping that every reachable
store satisfies: ids are distinct and below the id counter. -/
def IdsWF (st : MemState) : Prop :=
  st.memory_ids.Nodup ∧ ∀ i ∈ st.memory_ids, i < st.next_id

instance : DecidablePred IdsWF := fun st => by
  unfold IdsWF; infer_instance

/-- Active records of a store: the id/text/metadata triples whose id is
not soft-deleted and whose text is not the deletion sentinel. -/
def activeRecords (st : MemState) : List (String × Meta × Nat) :=
  (st.memories.zip (st.metadata.zip st.memory_ids)).filter
    (fun tr => tr.2.2 ∉ st.deleted_ids ∧ tr.1 ≠ deletedSentinel)

/-- Reading of claim C9's extraction rule, following the specification's
words: take the remainder of the utterance after the matched keyword,
strip whitespace, strip one leading preposition word (`關於` or `about`,
case-insensitively), strip leading punctuation, and yield `none` exactly
when nothing remains. -/
def specTarget (text : String) (e : Nat) : Option String :=
  let rem1 := pyStripList (text.data.drop e)
  let rem2 := pyStripList
    (if startsWithL "關於".data rem1 then rem1.drop 2
     else if startsWithL "about".data (rem1.map Char.toLower) then rem1.drop 5
     else rem1)
  let rem3 := pyStripList (dropLeading
    (fun c => ("：:，,.。!！？?".data).contains c) rem2)
  if rem3 = [] then none else some (String.mk rem3)

/-! Basic facts about the store operations. -/

lemma deleteById_memory_ids (st : MemState) (x : Nat) (now : ℚ) (ns : String) :
    (deleteById st x now ns).2.memory_ids = st.memory_ids := by
  unfold deleteById
  cases st.memory_ids.findIdx? (fun i => i = x) <;> rfl

lemma deleteById_next_id (st : MemState) (x : Nat) (now : ℚ) (ns : String) :
    (deleteById st x now ns).2.next_id = st.next_id := by
  unfold deleteById
  cases st.memory_ids.findIdx? (fun i => i = x) <;> rfl

lemma deleteById_deleted_sub (st : MemState) (x : Nat) (now : ℚ) (ns : String) :
    st.deleted_ids ⊆ (deleteById st x now ns).2.deleted_ids := by
  unfold deleteById
  cases st.memory_ids.findIdx? (fun i => i = x) with
  | none => exact Finset.Subset.refl _
  | some pos => exact Finset.subset_insert _ _

lemma deleteById_fst_true (st : MemState) (x : Nat) (now : ℚ) (ns : String)
    (hx : x ∈ st.memory_ids) : (deleteById st x now ns).1 = true := by
  unfold deleteById
  have : st.memory_ids.findIdx? (fun i => i = x) ≠ none := by
    intro hn
    rw [List.findIdx?_eq_none_iff] at hn
    have := hn x hx
    simp at this
  cases hfind : st.memory_ids.findIdx? (fun i => i = x) with
  | none => exact absurd hfind this
  | some pos => rfl

lemma deleteById_deleted_of_mem (st : MemState) (x : Nat) (now : ℚ) (ns : String)
    (hx : x ∈ st.memory_ids) :
    (deleteById st x now ns).2.deleted_ids = insert x st.deleted_ids := by
  unfold deleteById
  have : st.memory_ids.findIdx? (fun i => i = x) ≠ none := by
    intro hn
    rw [List.findIdx?_eq_none_iff] at hn
    have := hn x hx
    simp at this
  cases hfind : st.memory_ids.findIdx? (fun i => i = x) with
  | none => exact absurd hfind this
  | some pos => rfl

lemma deleteById_deleted_of_not_mem (st : MemState) (x : Nat) (now : ℚ) (ns : String)
    (hx : x ∉ st.memory_ids) : deleteById st x now ns = (false, st) := by
  unfold deleteById
  cases hfind : st.memory_ids.findIdx? (fun i => i = x) with
  | none => rfl
  | some pos =>
    exfalso
    rcases List.findIdx?_eq_some_iff_getElem.mp hfind with ⟨hlt, hp, _⟩
    simp only [decide_eq_true_eq] at hp
    exact hx (hp ▸ List.getElem_mem hlt)

/-- Alignment survives a soft delete. -/
lemma aligned_deleteById (st : MemState) (x : Nat) (now : ℚ) (ns : String)
    (h : Aligned st) : Aligned (deleteById st x now ns).2 := by
  unfold deleteById
  cases st.memory_ids.findIdx? (fun i => i = x) with
  | none => exact h
  | some pos =>
    obtain ⟨h1, h2, h3⟩ := h
    exact ⟨by simpa using h1, by simpa using h2, by simpa using h3⟩

/-- Fold form shared by `delete_memories_by_content` /
`delete_recent_memories` / `_delete_all_memories`: any state predicate
preserved by single soft deletes is preserved by the whole loop of
`delete_memories_by_content`. -/
lemma delContent_preserve (now : ℚ) (ns : String) (P : MemState → Prop)
    (hP : ∀ s x, P s → P (deleteById s x now ns).2)
    (ctx : Ctx) (st : MemState) (q : String) (t : ℚ)
    (h : P st) : P (deleteMemoriesByContent ctx st q t now ns).2 := by
  unfold deleteMemoriesByContent
  generalize searchMemories ctx st q 10 t = hits
  suffices H : ∀ (l : List SearchResult) (acc : List Nat) (s : MemState), P s →
      P ((l.foldl (fun (p : List Nat × MemState) r =>
        let mid := p.2.memory_ids.getD r.index 0
        let d := deleteById p.2 mid now ns
        (if d.1 then p.1 ++ [mid] else p.1, d.2)) (acc, s)).2) by
    exact H hits [] st h
  intro l
  induction l with
  | nil => intro acc s hs; exact hs
  | cons r rest ih =>
    intro acc s hs
    exact ih _ _ (hP _ _ hs)

/-- Any state predicate preserved by single soft deletes is preserved by
the loop of `delete_recent_memories`. -/
lemma delRecent_preserve (now : ℚ) (ns : String) (P : MemState → Prop)
    (hP : ∀ s x, P s → P (deleteById s x now ns).2)
    (st : MemState) (hours : Nat)
    (h : P st) : P (deleteRecentMemories st hours now ns).2 := by
  unfold deleteRecentMemories
  generalize st.memory_ids.zip st.metadata = l
  suffices H : ∀ (l : List (Nat × Meta)) (acc : List Nat) (s : MemState), P s →
      P ((l.foldl (fun (p : List Nat × MemState) im =>
        if im.1 ∈ p.2.deleted_ids then p
        else if now - (hours : ℚ) * 3600 < im.2.tsGet then
          let d := deleteById p.2 im.1 now ns
          (if d.1 then p.1 ++ [im.1] else p.1, d.2)
        else p) (acc, s)).2) by
    exact H l [] st h
  intro l
  induction l with
  | nil => intro acc s hs; exact hs
  | cons im rest ih =>
    intro acc s hs
    by_cases h1 : im.1 ∈ s.deleted_ids
    · simp only [List.foldl_cons, if_pos h1]
      exact ih _ _ hs
    · by_cases h2 : now - (hours : ℚ) * 3600 < im.2.tsGet
      · simp only [List.foldl_cons, if_neg h1, if_pos h2]
        exact ih _ _ (hP _ _ hs)
      · simp only [List.foldl_cons, if_neg h1, if_neg h2]
        exact ih _ _ hs

/-- Any state predicate preserved by single soft deletes is preserved by
the loop of `_delete_all_memories`. -/
lemma delAll_preserve (now : ℚ) (ns : String) (P : MemState → Prop)
    (hP : ∀ s x, P s → P (deleteById s x now ns).2)
    (st : MemState) (h : P st) : P (deleteAllMemories st now ns).2 := by
  unfold deleteAllMemories
  generalize st.memory_ids.filter (fun mid => mid ∉ st.deleted_ids) = l
  induction l generalizing st with
  | nil => exact h
  | cons x rest ih => exact ih _ (hP _ _ h)

/-- Alignment survives every operation. -/
lemma aligned_applyOp (ctx : Ctx) (st : MemState) (op : Op)
    (h : Aligned st) : Aligned (applyOp ctx st op) := by
  cases op with
  | add text md now ns rand =>
    simp only [applyOp, addMemory]
    by_cases hs : pyStrip text = ""
    · simpa [hs] using h
    · obtain ⟨h1, h2, h3⟩ := h
      simp only [if_neg hs]
      exact ⟨by simp [h1], by simp [h2], by simp [h3]⟩
  | delId x now ns => exact aligned_deleteById st x now ns h
  | delContent q t now ns =>
    exact delContent_preserve now ns Aligned (fun s x => aligned_deleteById s x _ _) ctx st q t h
  | delRecent hours now ns =>
    exact delRecent_preserve now ns Aligned (fun s x => aligned_deleteById s x _ _) st hours h
  | cleanup rands =>
    simp only [applyOp, cleanupDeletedMemories]
    by_cases hd : st.deleted_ids = ∅
    · simpa [hd] using h
    · simp only [if_neg hd]
      refine ⟨by simp, by simp, ?_⟩
      by_cases hm : ctx.hasModel <;> simp [hm]

lemma aligned_applyOps (ctx : Ctx) (st : MemState) (ops : List Op)
    (h : Aligned st) : Aligned (applyOps ctx st ops) := by
  induction ops generalizing st with
  | nil => exact h
  | cons op rest ih => exact ih _ (aligned_applyOp ctx st op h)

/-- The ids produced by a cleanup are a sublist of the previous ids. -/
lemma cleanup_ids_sublist (ctx : Ctx) (st : MemState) (rands : Nat → List ℚ) :
    (cleanupDeletedMemories ctx st rands).memory_ids.Sublist st.memory_ids := by
  unfold cleanupDeletedMemories
  by_cases hd : st.deleted_ids = ∅
  · simp [hd]
  · simp only [if_neg hd]
    have h1 : (((st.memories.zip (st.metadata.zip st.memory_ids)).filter
        (fun tr => decide (tr.2.2 ∉ st.deleted_ids ∧ tr.1 ≠ deletedSentinel))).map
          (fun tr => tr.2.2)).Sublist
        ((st.memories.zip (st.metadata.zip st.memory_ids)).map (fun tr => tr.2.2)) :=
      List.Sublist.map _ (List.filter_sublist _)
    have h2 : ((st.memories.zip (st.metadata.zip st.memory_ids)).map
        (fun tr => tr.2.2)).Sublist st.memory_ids := by
      have hz : ∀ (l1 : List String) (l2 : List Meta) (l3 : List Nat),
          ((l1.zip (l2.zip l3)).map (fun tr => tr.2.2)).Sublist l3 := by
        intro l1
        induction l1 with
        | nil => intro l2 l3; simp
        | cons a l1 ih =>
          intro l2 l3
          cases l2 with
          | nil => simp
          | cons b l2 =>
            cases l3 with
            | nil => simp
            | cons c l3 => simpa using List.Sublist.cons₂ c (ih l2 l3)
      exact hz _ _ _
    exact h1.trans h2

/-- Id bookkeeping survives every operation. -/
lemma idswf_applyOp (ctx : Ctx) (st : MemState) (op : Op)
    (h : IdsWF st) : IdsWF (applyOp ctx st op) := by
  obtain ⟨hnd, hbd⟩ := h
  cases op with
  | add text md now ns rand =>
    simp only [applyOp, addMemory]
    by_cases hs : pyStrip text = ""
    · simp only [if_pos hs]
      exact ⟨hnd, hbd⟩
    · simp only [if_neg hs]
      constructor
      · simp only [List.nodup_append, List.nodup_cons, List.nodup_nil]
        refine ⟨hnd, by simp, ?_⟩
        intro a ha
        simp only [List.mem_singleton]
        intro hEq
        exact absurd (hbd a ha) (by omega)
      · intro i hi
        rcases List.mem_append.mp hi with hi | hi
        · exact Nat.lt_succ_of_lt (hbd i hi)
        · simp only [List.mem_singleton] at hi
          subst hi
          exact Nat.lt_succ_self _
  | delId x now ns =>
    refine ⟨?_, ?_⟩
    · simpa [applyOp, deleteById_memory_ids] using hnd
    · simpa [applyOp, deleteById_memory_ids, deleteById_next_id] using hbd
  | delContent q t now ns =>
    exact delContent_preserve now ns IdsWF
      (fun s x hs => ⟨by simpa [deleteById_memory_ids] using hs.1,
        by simpa [deleteById_memory_ids, deleteById_next_id] using hs.2⟩)
      ctx st q t ⟨hnd, hbd⟩
  | delRecent hours now ns =>
    exact delRecent_preserve now ns IdsWF
      (fun s x hs => ⟨by simpa [deleteById_memory_ids] using hs.1,
        by simpa [deleteById_memory_ids, deleteById_next_id] using hs.2⟩)
      st hours ⟨hnd, hbd⟩
  | cleanup rands =>
    have hsub := cleanup_ids_sublist ctx st rands
    have hnext : (cleanupDeletedMemories ctx st rands).next_id = st.next_id := by
      unfold cleanupDeletedMemories
      by_cases hd : st.deleted_ids = ∅ <;> simp [hd]
    exact ⟨hsub.nodup hnd, fun i hi => hnext ▸ hbd i (hsub.subset hi)⟩

lemma next_id_applyOp (ctx : Ctx) (st : MemState) (op : Op) :
    st.next_id ≤ (applyOp ctx st op).next_id := by
  cases op with
  | add text md now ns rand =>
    simp only [applyOp, addMemory]
    by_cases hs : pyStrip text = ""
    · simp [hs]
    · simp only [if_neg hs]
      exact Nat.le_succ _
  | delId x now ns => simp [applyOp, deleteById_next_id]
  | delContent q t now ns =>
    exact delContent_preserve now ns (fun s => st.next_id ≤ s.next_id)
      (fun s x hs => by simpa [deleteById_next_id] using hs) ctx st q t le_rfl
  | delRecent hours now ns =>
    exact delRecent_preserve now ns (fun s => st.next_id ≤ s.next_id)
      (fun s x hs => by simpa [deleteById_next_id] using hs) st hours le_rfl
  | cleanup rands =>
    unfold applyOp cleanupDeletedMemories
    by_cases hd : st.deleted_ids = ∅ <;> simp [hd]

lemma next_id_applyOps (ctx : Ctx) (st : MemState) (ops : List Op) :
    st.next_id ≤ (applyOps ctx st ops).next_id := by
  induction ops generalizing st with
  | nil => exact le_rfl
  | cons op rest ih =>
    exact le_trans (next_id_applyOp ctx st op) (ih (applyOp ctx st op))

lemma idswf_applyOps (ctx : Ctx) (st : MemState) (ops : List Op)
    (h : IdsWF st) : IdsWF (applyOps ctx st ops) := by
  induction ops generalizing st with
  | nil => exact h
  | cons op rest ih => exact ih _ (idswf_applyOp ctx st op h)

lemma aligned_initState : Aligned initState := ⟨rfl, rfl, rfl⟩

lemma idswf_initState : IdsWF initState := by
  constructor
  · exact List.nodup_nil
  · intro i hi
    simp [initState] at hi

/-- Claim C1 — Alignment invariant: after any finite sequence of
`add_memory`, `delete_memory_by_id`, `delete_memories_by_content`,
`delete_recent_memories` and `cleanup_deleted_memories` calls on a fresh
store, the id list, the text list, the metadata list, and the vector
index all have the same length. -/
theorem alignment_invariant (ctx : Ctx) (ops : List Op) :
    (applyOps ctx initState ops).memory_ids.length =
        (applyOps ctx initState ops).memories.length ∧
    (applyOps ctx initState ops).memories.length =
        (applyOps ctx initState ops).metadata.length ∧
    (applyOps ctx initState ops).metadata.length =
        (applyOps ctx initState ops).index.length := by
  obtain ⟨h1, h2, h3⟩ := aligned_applyOps ctx initState ops aligned_initState
  exact ⟨h2.symm, h1, h1 ▸ h3⟩

/-- Claim C8 — Empty-input rejection: for text that is empty or pure
whitespace, `add_memory` returns `-1` and the whole state (lists, index,
id counter, soft-delete set) is untouched, whatever the metadata. -/
theorem empty_input_rejection (ctx : Ctx) (st : MemState) (text : String)
    (md : Option MetaIn) (now : ℚ) (ns : String) (rand : List ℚ)
    (h : ∀ c ∈ text.data, isPyWs c = true) :
    addMemory ctx st text md now ns rand = (-1, st) := by
  have hstrip : pyStrip text = "" := by
    have hall : ∀ (l : List Char), (∀ c ∈ l, isPyWs c = true) →
        dropLeading isPyWs l = [] := by
      intro l
      induction l with
      | nil => intro _; rfl
      | cons c cs ih =>
        intro hl
        simp only [dropLeading, if_pos (hl c (List.mem_cons_self c cs))]
        exact ih (fun d hd => hl d (List.mem_cons_of_mem c hd))
    unfold pyStrip pyStripList
    have h1 : dropLeading isPyWs text.data.reverse = [] :=
      hall _ (fun c hc => h c (List.mem_reverse.mp hc))
    rw [h1]
    simp [hall]
  unfold addMemory
  rw [if_pos hstrip]

/-- Witness for C8 at the concrete whitespace text consisting of a space
and a tab. -/
theorem empty_input_rejection_witness :
    addMemory ⟨true, 1, fun _ => [1]⟩ initState " \t" none 0 "" [] =
      (-1, initState) :=
  empty_input_rejection ⟨true, 1, fun _ => [1]⟩ initState " \t" none 0 "" []
    (by decide)

lemma addMemory_fst (ctx : Ctx) (st : MemState) (text : String)
    (md : Option MetaIn) (now : ℚ) (ns : String) (rand : List ℚ) :
    (addMemory ctx st text md now ns rand).1 =
      if pyStrip text = "" then -1 else (st.next_id : Int) := by
  unfold addMemory
  by_cases hs : pyStrip text = "" <;> simp [hs]

lemma addMemory_next_id (ctx : Ctx) (st : MemState) (text : String)
    (md : Option MetaIn) (now : ℚ) (ns : String) (rand : List ℚ)
    (h : pyStrip text ≠ "") :
    (addMemory ctx st text md now ns rand).2.next_id = st.next_id + 1 := by
  unfold addMemory
  simp [h]

/-- Claim C4 — Id monotonicity: `next_id` never decreases under any
operation, and the ids returned by two successful `add_memory` calls with
any operations (including cleanups) in between are strictly increasing;
moreover the id handed out by a successful add was never in use before. -/
theorem id_monotonicity :
    (∀ (ctx : Ctx) (st : MemState) (op : Op),
        st.next_id ≤ (applyOp ctx st op).next_id) ∧
    (∀ (ctx : Ctx) (ops₀ : List Op) (text₁ : String) (md₁ : Option MetaIn)
        (now₁ : ℚ) (ns₁ : String) (rand₁ : List ℚ) (ops₁ : List Op)
        (text₂ : String) (md₂ : Option MetaIn) (now₂ : ℚ) (ns₂ : String)
        (rand₂ : List ℚ),
      (addMemory ctx (applyOps ctx initState ops₀) text₁ md₁ now₁ ns₁ rand₁).1 ≠ -1 →
      (addMemory ctx
          (applyOps ctx
            (addMemory ctx (applyOps ctx initState ops₀) text₁ md₁ now₁ ns₁ rand₁).2
            ops₁)
          text₂ md₂ now₂ ns₂ rand₂).1 ≠ -1 →
      (addMemory ctx (applyOps ctx initState ops₀) text₁ md₁ now₁ ns₁ rand₁).1 <
        (addMemory ctx
          (applyOps ctx
            (addMemory ctx (applyOps ctx initState ops₀) text₁ md₁ now₁ ns₁ rand₁).2
            ops₁)
          text₂ md₂ now₂ ns₂ rand₂).1 ∧
      (addMemory ctx (applyOps ctx initState ops₀) text₁ md₁ now₁ ns₁ rand₁).1.toNat ∉
        (applyOps ctx initState ops₀).memory_ids) := by
  constructor
  · exact next_id_applyOp
  · intro ctx ops₀ text₁ md₁ now₁ ns₁ rand₁ ops₁ text₂ md₂ now₂ ns₂ rand₂ h₁ h₂
    have hs₁ : pyStrip text₁ ≠ "" := by
      intro hc
      rw [addMemory_fst, if_pos hc] at h₁
      exact h₁ rfl
    have hs₂ : pyStrip text₂ ≠ "" := by
      intro hc
      rw [addMemory_fst, if_pos hc] at h₂
      exact h₂ rfl
    set st₁ := applyOps ctx initState ops₀ with hst₁
    have hfst₁ : (addMemory ctx st₁ text₁ md₁ now₁ ns₁ rand₁).1 = (st₁.next_id : Int) := by
      rw [addMemory_fst, if_neg hs₁]
    set st₂ := applyOps ctx (addMemory ctx st₁ text₁ md₁ now₁ ns₁ rand₁).2 ops₁ with hst₂
    have hfst₂ : (addMemory ctx st₂ text₂ md₂ now₂ ns₂ rand₂).1 = (st₂.next_id : Int) := by
      rw [addMemory_fst, if_neg hs₂]
    have hmono : st₁.next_id + 1 ≤ st₂.next_id := by
      have := next_id_applyOps ctx (addMemory ctx st₁ text₁ md₁ now₁ ns₁ rand₁).2 ops₁
      rwa [addMemory_next_id ctx st₁ text₁ md₁ now₁ ns₁ rand₁ hs₁] at this
    refine ⟨?_, ?_⟩
    · rw [hfst₁, hfst₂]
      exact_mod_cast Nat.lt_of_succ_le hmono
    · rw [hfst₁]
      simp only [Int.toNat_natCast]
      intro hmem
      have hwf := idswf_applyOps ctx initState ops₀ idswf_initState
      exact absurd (hwf.2 _ hmem) (lt_irrefl _)

/-- Witness for C4: two successful adds on a fresh store (fallback mode)
return ids `0 < 1`, and id `0` was unused before its add. -/
theorem id_monotonicity_witness :
    (addMemory ⟨false, 1, fun _ => []⟩ initState "a" none 0 "" []).1 <
      (addMemory ⟨false, 1, fun _ => []⟩
        (addMemory ⟨false, 1, fun _ => []⟩ initState "a" none 0 "" []).2
        "b" none 0 "" []).1 ∧
    (addMemory ⟨false, 1, fun _ => []⟩ initState "a" none 0 "" []).1.toNat ∉
      initState.memory_ids :=
  id_monotonicity.2 ⟨false, 1, fun _ => []⟩ [] "a" none 0 "" [] [] "b" none 0 "" []
    (by decide) (by decide)

/-- Length bookkeeping for a cleanup-free trace: each successful add grows
the id list by one and nothing else changes its length. -/
lemma ids_length_no_cleanup (ctx : Ctx) :
    ∀ (ops : List Op) (st : MemState), (∀ op ∈ ops, op.isCleanup = false) →
      (applyOps ctx st ops).memory_ids.length =
        st.memory_ids.length + countAdds ctx st ops := by
  intro ops
  induction ops with
  | nil => intro st _; simp [applyOps, countAdds]
  | cons op rest ih =>
    intro st hops
    have hrest : ∀ o ∈ rest, o.isCleanup = false :=
      fun o ho => hops o (List.mem_cons_of_mem op ho)
    have hstep : (applyOp ctx st op).memory_ids.length =
        st.memory_ids.length +
          (match op with
            | .add text md now ns rand =>
              if (addMemory ctx st text md now ns rand).1 ≠ -1 then 1 else 0
            | _ => 0) := by
      cases op with
      | add text md now ns rand =>
        simp only [applyOp]
        rw [addMemory_fst]
        by_cases hs : pyStrip text = ""
        · simp [addMemory, hs]
        · simp [addMemory, hs]
      | delId x now ns => simp [applyOp, deleteById_memory_ids]
      | delContent q t now ns =>
        have := delContent_preserve now ns
          (fun s => s.memory_ids.length = st.memory_ids.length)
          (fun s x hs => by simpa [deleteById_memory_ids] using hs)
          ctx st q t rfl
        simpa [applyOp] using this
      | delRecent hours now ns =>
        have := delRecent_preserve now ns
          (fun s => s.memory_ids.length = st.memory_ids.length)
          (fun s x hs => by simpa [deleteById_memory_ids] using hs)
          st hours rfl
        simpa [applyOp] using this
      | cleanup rands =>
        exact absurd (hops _ (List.mem_cons_self _ _)) (by simp [Op.isCleanup])
    show (applyOps ctx (applyOp ctx st op) rest).memory_ids.length = _
    rw [ih (applyOp ctx st op) hrest, hstep]
    simp only [countAdds]
    cases op with
    | add text md now ns rand => simp; omega
    | delId x now ns => simp
    | delContent q t now ns => simp
    | delRecent hours now ns => simp
    | cleanup rands => simp

/-- Claim C6 (amended) — Stats contract: `get_memory_stats` reports
`total` as the record count currently held (soft-deleted included),
`deleted` as the size of the soft-delete set, `active = total - deleted`,
and `cleanup_needed` exactly when something is soft-deleted; `total`
equals the all-time number of successful `add_memory` calls whenever no
`cleanup_deleted_memories` call occurs in the trace (a cleanup physically
removes records and lowers `total`). -/
theorem stats_contract (ctx : Ctx) (ops : List Op) :
    (getMemoryStats (applyOps ctx initState ops)).total =
        (applyOps ctx initState ops).memory_ids.length ∧
    (getMemoryStats (applyOps ctx initState ops)).deleted =
        (applyOps ctx initState ops).deleted_ids.card ∧
    (getMemoryStats (applyOps ctx initState ops)).active =
        ((getMemoryStats (applyOps ctx initState ops)).total : Int) -
          ((getMemoryStats (applyOps ctx initState ops)).deleted : Int) ∧
    ((getMemoryStats (applyOps ctx initState ops)).cleanup_needed = true ↔
        0 < (getMemoryStats (applyOps ctx initState ops)).deleted) ∧
    ((∀ op ∈ ops, op.isCleanup = false) →
      (getMemoryStats (applyOps ctx initState ops)).total =
        countAdds ctx initState ops) := by
  refine ⟨rfl, rfl, rfl, by simp [getMemoryStats], ?_⟩
  intro hops
  have := ids_length_no_cleanup ctx ops initState hops
  simpa [getMemoryStats, initState] using this

/-- Witness for C6 (amended) at a concrete cleanup-free trace of one
successful add, one rejected add and one soft delete. -/
theorem stats_contract_witness :
    (getMemoryStats (applyOps ⟨false, 1, fun _ => []⟩ initState
        [Op.add "a" none 0 "" [1], Op.add " " none 0 "" [1],
         Op.delId 0 1 "t"])).total =
      countAdds ⟨false, 1, fun _ => []⟩ initState
        [Op.add "a" none 0 "" [1], Op.add " " none 0 "" [1],
         Op.delId 0 1 "t"] :=
  (stats_contract ⟨false, 1, fun _ => []⟩
      [Op.add "a" none 0 "" [1], Op.add " " none 0 "" [1],
       Op.delId 0 1 "t"]).2.2.2.2 (by decide)

/-- Counterexample to claim C6 as stated: after adding one memory,
soft-deleting it and running cleanup, `get_memory_stats` reports
`total = 0`, while exactly one `add_memory` call succeeded in the trace —
`total` is not the all-time record count once a cleanup has physically
removed records. -/
theorem stats_total_not_all_time :
    (getMemoryStats (applyOps ⟨false, 1, fun _ => []⟩ initState
        [Op.add "a" none 0 "" [1], Op.delId 0 1 "t",
         Op.cleanup (fun _ => [])])).total = 0 ∧
    countAdds ⟨false, 1, fun _ => []⟩ initState
        [Op.add "a" none 0 "" [1], Op.delId 0 1 "t",
         Op.cleanup (fun _ => [])] = 1 ∧
    (getMemoryStats (applyOps ⟨false, 1, fun _ => []⟩ initState
        [Op.add "a" none 0 "" [1], Op.delId 0 1 "t",
         Op.cleanup (fun _ => [])])).total ≠
      countAdds ⟨false, 1, fun _ => []⟩ initState
        [Op.add "a" none 0 "" [1], Op.delId 0 1 "t",
         Op.cleanup (fun _ => [])] := by
  refine ⟨by decide, by decide, by decide⟩

lemma findIdx?_id_eq (l : List Nat) (x : Nat) (pos : Nat)
    (h : l.findIdx? (fun i => i = x) = some pos) :
    ∃ (hlt : pos < l.length), l.get ⟨pos, hlt⟩ = x := by
  rcases List.findIdx?_eq_some_iff_getElem.mp h with ⟨hlt, hp, _⟩
  simp only [decide_eq_true_eq] at hp
  exact ⟨hlt, hp⟩

/-- Overwriting an already-inactive slot (its id is soft-deleted) with the
sentinel text and a fresh deletion marker does not change the filtered
record view. -/
lemma filter_zip_set (D : Finset Nat) (b : Meta) :
    ∀ (lm : List String) (lmd : List Meta) (lid : List Nat) (pos : Nat),
      (∀ (h : pos < lid.length), lid.get ⟨pos, h⟩ ∈ D) →
      ((lm.set pos deletedSentinel).zip ((lmd.set pos b).zip lid)).filter
        (fun tr => decide (tr.2.2 ∉ D ∧ tr.1 ≠ deletedSentinel)) =
      (lm.zip (lmd.zip lid)).filter
        (fun tr => decide (tr.2.2 ∉ D ∧ tr.1 ≠ deletedSentinel)) := by
  intro lm
  induction lm with
  | nil => intro lmd lid pos _; rfl
  | cons m lm ih =>
    intro lmd lid pos hpos
    cases lmd with
    | nil => cases pos <;> rfl
    | cons md lmd =>
      cases lid with
      | nil => cases pos <;> rfl
      | cons i lid =>
        cases pos with
        | zero =>
          have hi : i ∈ D := by
            have := hpos (by simp)
            simpa using this
          simp only [List.set_cons_zero, List.zip_cons_cons, List.filter_cons]
          have hfalse1 : decide (i ∉ D ∧ deletedSentinel ≠ deletedSentinel) = false := by
            simp
          have hfalse2 : decide (i ∉ D ∧ m ≠ deletedSentinel) = false := by
            simp [hi]
          rw [hfalse1, hfalse2]
          simp
        | succ n =>
          simp only [List.set_cons_succ, List.zip_cons_cons, List.filter_cons]
          have htail := ih lmd lid n (fun h => by
            have := hpos (by simpa using Nat.succ_lt_succ h)
            simpa using this)
          rw [htail]

/-- Claim C10 — repeated soft delete: deleting an id that is already
soft-deleted but still physically present returns `True` again and leaves
both the stats and the set of active records unchanged, and `False` is
returned exactly for ids not present in `memory_ids`. -/
theorem repeated_soft_delete (st : MemState) (x : Nat) (now : ℚ) (ns : String) :
    (x ∈ st.deleted_ids → x ∈ st.memory_ids →
      (deleteById st x now ns).1 = true ∧
      getMemoryStats (deleteById st x now ns).2 = getMemoryStats st ∧
      activeRecords (deleteById st x now ns).2 = activeRecords st) ∧
    ((deleteById st x now ns).1 = false ↔ x ∉ st.memory_ids) := by
  constructor
  · intro hd hm
    refine ⟨deleteById_fst_true st x now ns hm, ?_, ?_⟩
    · have hins : insert x st.deleted_ids = st.deleted_ids :=
        Finset.insert_eq_self.mpr hd
      unfold deleteById
      cases hfind : st.memory_ids.findIdx? (fun i => i = x) with
      | none =>
        rfl
      | some pos =>
        simp [getMemoryStats, hins]
    · unfold deleteById
      cases hfind : st.memory_ids.findIdx? (fun i => i = x) with
      | none => rfl
      | some pos =>
        obtain ⟨hlt, hget⟩ := findIdx?_id_eq _ _ _ hfind
        have hins : insert x st.deleted_ids = st.deleted_ids :=
          Finset.insert_eq_self.mpr hd
        show activeRecords
            { st with
              deleted_ids := insert x st.deleted_ids
              memories := st.memories.set pos deletedSentinel
              metadata := st.metadata.set pos (Meta.tomb now ns) } =
          activeRecords st
        unfold activeRecords
        simp only [hins]
        exact filter_zip_set st.deleted_ids (Meta.tomb now ns)
          st.memories st.metadata st.memory_ids pos
          (fun h => hget ▸ hd)
  · constructor
    · intro hfalse hmem
      have := deleteById_fst_true st x now ns hmem
      rw [this] at hfalse
      simp at hfalse
    · intro hnot
      rw [deleteById_deleted_of_not_mem st x now ns hnot]

/-- Witness for C10 on a concrete two-record store whose id `0` is
already soft-deleted, with a second check at the absent id `5`. -/
theorem repeated_soft_delete_witness :
    ((deleteById
        ⟨[deletedSentinel, "b"], [Meta.tomb 0 "", Meta.active 0 "" []],
          [0, 1], 2, {0}, [[1], [2]]⟩ 0 3 "t").1 = true ∧
      getMemoryStats (deleteById
        ⟨[deletedSentinel, "b"], [Meta.tomb 0 "", Meta.active 0 "" []],
          [0, 1], 2, {0}, [[1], [2]]⟩ 0 3 "t").2 =
        getMemoryStats
          ⟨[deletedSentinel, "b"], [Meta.tomb 0 "", Meta.active 0 "" []],
            [0, 1], 2, {0}, [[1], [2]]⟩ ∧
      activeRecords (deleteById
        ⟨[deletedSentinel, "b"], [Meta.tomb 0 "", Meta.active 0 "" []],
          [0, 1], 2, {0}, [[1], [2]]⟩ 0 3 "t").2 =
        activeRecords
          ⟨[deletedSentinel, "b"], [Meta.tomb 0 "", Meta.active 0 "" []],
            [0, 1], 2, {0}, [[1], [2]]⟩) ∧
    ((deleteById
        ⟨[deletedSentinel, "b"], [Meta.tomb 0 "", Meta.active 0 "" []],
          [0, 1], 2, {0}, [[1], [2]]⟩ 5 3 "t").1 = false ↔
      5 ∉ ([0, 1] : List Nat)) :=
  ⟨(repeated_soft_delete
      ⟨[deletedSentinel, "b"], [Meta.tomb 0 "", Meta.active 0 "" []],
        [0, 1], 2, {0}, [[1], [2]]⟩ 0 3 "t").1 (by decide) (by decide),
   (repeated_soft_delete
      ⟨[deletedSentinel, "b"], [Meta.tomb 0 "", Meta.active 0 "" []],
        [0, 1], 2, {0}, [[1], [2]]⟩ 5 3 "t").2⟩

/-- Counterexample to claim C5 as stated: on the utterance
`"What is your name?"` the trigger detector does return
`should_store = false`, but with kind `"none"`, not `"query"`: the
trailing ASCII question mark is not among the question patterns (they
use the fullwidth mark `？`), the interrogative openers and query-verb
phrases are all Chinese, and no other rule matches either. -/
theorem query_classification_counterexample :
    (detectMemoryRequest "What is your name?").should_store = false ∧
    (detectMemoryRequest "What is your name?").kind ≠ "query" := by
  constructor
  · rfl
  · decide

/-- Claim C5 (amended): on the utterance `"What is your name?"` the
trigger detector returns `should_store = false` with `kind = "none"` and
no extracted content — the query rule does not fire because only the
fullwidth question mark is recognised, and the utterance falls through
every rule. -/
theorem query_classification_on_name_question :
    detectMemoryRequest "What is your name?" =
      ⟨false, "none", none, 0⟩ := by
  rfl

/-! Closed form of the search result loop. -/

lemma accept_iff (st : MemState) (t : ℚ) (c : ℚ × Nat) :
    accept st t c = true ↔
      c.2 < st.memories.length ∧
      ¬(st.memory_ids.getD c.2 0 ∈ st.deleted_ids ∨
        st.memories.getD c.2 "" = deletedSentinel) ∧
      t ≤ c.1 := by
  unfold accept
  constructor
  · intro h
    simp only [Bool.and_eq_true, Bool.not_eq_true', Bool.or_eq_false_iff,
      decide_eq_true_eq, decide_eq_false_iff_not] at h
    exact ⟨h.1.1, by tauto, h.2⟩
  · intro ⟨h1, h2, h3⟩
    push_neg at h2
    rw [Bool.and_eq_true, Bool.and_eq_true]
    refine ⟨⟨by simpa using h1, ?_⟩, by simpa using h3⟩
    simp only [Bool.not_eq_true', Bool.or_eq_false_iff, decide_eq_false_iff_not]
    exact ⟨h2.1, h2.2⟩

/-- The collection loop equals a filter of the candidates followed by a
truncation (length `top_k`, or 1 when `top_k = 0`, because the Python
loop checks the break condition only after an append). -/
lemma collectAux_eq (st : MemState) (t : ℚ) (k : Nat) :
    ∀ (cands : List (ℚ × Nat)) (acc : List SearchResult),
      collectAux st t k cands acc =
        acc ++ ((cands.filter (accept st t)).map (mkRes st)).take
          (max (k - acc.length) 1) := by
  intro cands
  induction cands with
  | nil => intro acc; simp [collectAux]
  | cons c rest ih =>
    intro acc
    by_cases c1 : c.2 < st.memories.length
    · by_cases c2 : st.memory_ids.getD c.2 0 ∈ st.deleted_ids ∨
          st.memories.getD c.2 "" = deletedSentinel
      · have hacc : accept st t c = false := by
          rw [Bool.eq_false_iff]
          intro h
          exact (accept_iff st t c |>.mp h).2.1 c2
        simp only [collectAux, if_pos c1, if_pos c2]
        rw [ih acc]
        simp [List.filter_cons, hacc]
      · by_cases c3 : t ≤ c.1
        · have hacc : accept st t c = true :=
            (accept_iff st t c).mpr ⟨c1, c2, c3⟩
          by_cases c4 : k ≤ acc.length + 1
          · have hmax : max (k - acc.length) 1 = 1 := by omega
            simp only [collectAux, if_pos c1, if_neg c2, if_pos c3, if_pos c4]
            simp [List.filter_cons, hacc, hmax]
          · have hmax : max (k - acc.length) 1 = (k - acc.length - 1) + 1 := by omega
            have hmax' : max (k - (acc.length + 1)) 1 = k - acc.length - 1 := by omega
            simp only [collectAux, if_pos c1, if_neg c2, if_pos c3, if_neg c4]
            rw [ih (acc ++ [mkRes st c]), List.filter_cons]
            simp only [hacc, if_true, List.map_cons, List.length_append,
              List.length_cons, List.length_nil, Nat.add_zero, hmax, hmax',
              List.take_succ_cons, List.append_assoc, List.singleton_append]
        · have hacc : accept st t c = false := by
            rw [Bool.eq_false_iff]
            intro h
            exact c3 (accept_iff st t c |>.mp h).2.2
          simp only [collectAux, if_pos c1, if_neg c2, if_neg c3]
          rw [ih acc]
          simp [List.filter_cons, hacc]
    · have hacc : accept st t c = false := by
        rw [Bool.eq_false_iff]
        intro h
        exact c1 (accept_iff st t c |>.mp h).1
      simp only [collectAux, if_neg c1]
      rw [ih acc]
      simp [List.filter_cons, hacc]

/-- Search in closed form. -/
lemma searchMemories_eq (ctx : Ctx) (st : MemState) (q : String) (k : Nat)
    (t : ℚ) :
    searchMemories ctx st q k t =
      if st.memories.length = 0 then []
      else (((searchCandidates ctx st q k).filter (accept st t)).map
        (mkRes st)).take (max k 1) := by
  unfold searchMemories
  by_cases h : st.memories.length = 0
  · simp [h]
  · rw [if_neg h, if_neg h, collectAux_eq]
    simp

lemma mem_search_exists (ctx : Ctx) (st : MemState) (q : String) (k : Nat)
    (t : ℚ) (r : SearchResult) (hr : r ∈ searchMemories ctx st q k t) :
    ∃ c ∈ searchCandidates ctx st q k, accept st t c = true ∧ r = mkRes st c := by
  rw [searchMemories_eq] at hr
  by_cases h : st.memories.length = 0
  · rw [if_pos h] at hr
    exact absurd hr (List.not_mem_nil r)
  · rw [if_neg h] at hr
    have hr' := List.take_subset _ _ hr
    rcases List.mem_map.mp hr' with ⟨c, hc, hrc⟩
    rcases List.mem_filter.mp hc with ⟨hcand, hacc⟩
    exact ⟨c, hcand, hacc, hrc.symm⟩

/-! Sortedness of the candidate lists. -/

lemma faissLe_trans : ∀ a b c : ℚ × Nat,
    faissLe a b → faissLe b c → faissLe a c := by
  intro a b c hab hbc
  unfold faissLe at *
  simp only [Bool.or_eq_true, Bool.and_eq_true, decide_eq_true_eq] at *
  rcases hab with h1 | ⟨h1, h2⟩ <;> rcases hbc with h3 | ⟨h3, h4⟩
  · exact Or.inl (lt_trans h3 h1)
  · exact Or.inl (h3 ▸ h1)
  · exact Or.inl (h1 ▸ h3)
  · exact Or.inr ⟨h1.trans h3, le_trans h2 h4⟩

lemma faissLe_total : ∀ a b : ℚ × Nat, faissLe a b || faissLe b a := by
  intro a b
  unfold faissLe
  simp only [Bool.or_eq_true, Bool.and_eq_true, decide_eq_true_eq]
  rcases lt_trichotomy a.1 b.1 with h | h | h
  · exact Or.inr (Or.inl h)
  · rcases Nat.le_total a.2 b.2 with h2 | h2
    · exact Or.inl (Or.inr ⟨h, h2⟩)
    · exact Or.inr (Or.inr ⟨h.symm, h2⟩)
  · exact Or.inl (Or.inl h)

lemma revLexLe_trans : ∀ a b c : ℚ × Nat,
    revLexLe a b → revLexLe b c → revLexLe a c := by
  intro a b c hab hbc
  unfold revLexLe at *
  simp only [Bool.or_eq_true, Bool.and_eq_true, decide_eq_true_eq] at *
  rcases hab with h1 | ⟨h1, h2⟩ <;> rcases hbc with h3 | ⟨h3, h4⟩
  · exact Or.inl (lt_trans h3 h1)
  · exact Or.inl (h3 ▸ h1)
  · exact Or.inl (h1 ▸ h3)
  · exact Or.inr ⟨h1.trans h3, le_trans h4 h2⟩

lemma revLexLe_total : ∀ a b : ℚ × Nat, revLexLe a b || revLexLe b a := by
  intro a b
  unfold revLexLe
  simp only [Bool.or_eq_true, Bool.and_eq_true, decide_eq_true_eq]
  rcases lt_trichotomy a.1 b.1 with h | h | h
  · exact Or.inr (Or.inl h)
  · rcases Nat.le_total a.2 b.2 with h2 | h2
    · exact Or.inr (Or.inr ⟨h.symm, h2⟩)
    · exact Or.inl (Or.inr ⟨h, h2⟩)
  · exact Or.inl (Or.inl h)

/-- Candidates are listed in descending score order in both modes. -/
lemma sorted_searchCandidates (ctx : Ctx) (st : MemState) (q : String)
    (k : Nat) :
    (searchCandidates ctx st q k).Pairwise (fun a b => b.1 ≤ a.1) := by
  unfold searchCandidates
  by_cases hm : ctx.hasModel
  · simp only [if_pos hm]
    unfold indexSearch
    apply List.Pairwise.sublist (List.take_sublist _ _)
    have hs := List.sorted_mergeSort
      (fun a b c => faissLe_trans a b c) (fun a b => faissLe_total a b)
      ((List.range st.index.length).map
        (fun i => (dot (ctx.embed q) (st.index.getD i []), i)))
    refine hs.imp ?_
    intro a b hab
    unfold faissLe at hab
    simp only [Bool.or_eq_true, Bool.and_eq_true, decide_eq_true_eq] at hab
    rcases hab with h | ⟨h, _⟩
    · exact le_of_lt h
    · exact le_of_eq h.symm
  · simp only [if_neg hm]
    apply List.Pairwise.sublist (List.take_sublist _ _)
    have hs := List.sorted_mergeSort
      (fun a b c => revLexLe_trans a b c) (fun a b => revLexLe_total a b)
      ((List.range st.memories.length).filterMap (fun i =>
        if st.memory_ids.getD i 0 ∉ st.deleted_ids ∧
            st.memories.getD i "" ≠ deletedSentinel then
          some (simpleSimilarity q (st.memories.getD i ""), i)
        else none))
    refine hs.imp ?_
    intro a b hab
    unfold revLexLe at hab
    simp only [Bool.or_eq_true, Bool.and_eq_true, decide_eq_true_eq] at hab
    rcases hab with h | ⟨h, _⟩
    · exact le_of_lt h
    · exact le_of_eq h.symm

lemma accept_mono (st : MemState) (t t' : ℚ) (htt : t ≤ t') (c : ℚ × Nat)
    (h : accept st t' c = true) : accept st t c = true := by
  rcases (accept_iff st t' c).mp h with ⟨h1, h2, h3⟩
  exact (accept_iff st t c).mpr ⟨h1, h2, le_trans htt h3⟩

/-- On a descending candidate list, raising the threshold turns the
filtered list into a prefix of the lower-threshold one. -/
lemma filter_raise_threshold (st : MemState) (t t' : ℚ) (htt : t ≤ t') :
    ∀ (L : List (ℚ × Nat)), L.Pairwise (fun a b => b.1 ≤ a.1) →
      ∃ n, L.filter (accept st t') = (L.filter (accept st t)).take n := by
  intro L
  induction L with
  | nil => exact fun _ => ⟨0, rfl⟩
  | cons c rest ih =>
    intro hp
    rw [List.pairwise_cons] at hp
    obtain ⟨hc, hrest⟩ := hp
    obtain ⟨n, hn⟩ := ih hrest
    by_cases h1 : accept st t' c = true
    · have h2 : accept st t c = true := accept_mono st t t' htt c h1
      exact ⟨n + 1, by simp [List.filter_cons, h1, h2, hn]⟩
    · by_cases h2 : accept st t c = true
      · have hlt : c.1 < t' := by
          rcases (accept_iff st t c).mp h2 with ⟨g1, g2, _⟩
          by_contra hge
          exact h1 ((accept_iff st t' c).mpr ⟨g1, g2, le_of_not_lt hge⟩)
        have hnil : rest.filter (accept st t') = [] := by
          rw [List.filter_eq_nil_iff]
          intro d hd habs
          have := (accept_iff st t' d).mp habs
          exact absurd (lt_of_le_of_lt (hc d hd) hlt) (not_lt_of_le this.2.2)
        refine ⟨0, ?_⟩
        rw [List.filter_cons, List.filter_cons]
        simp [h1, h2, hnil]
      · refine ⟨n, ?_⟩
        rw [List.filter_cons, List.filter_cons]
        simp [h1, h2, hn]

/-- Claim C2 — Threshold floor and monotonicity: every result of
`search_memories(q, k, t)` scores at least `t`, and raising the threshold
can only shrink the result set (every result returned under `t' ≥ t` is
also returned under `t`). -/
theorem threshold_floor_monotone (ctx : Ctx) (st : MemState) (q : String)
    (k : Nat) (t t' : ℚ) :
    (∀ r ∈ searchMemories ctx st q k t, t ≤ r.score) ∧
    (t ≤ t' → ∀ r ∈ searchMemories ctx st q k t',
      r ∈ searchMemories ctx st q k t) := by
  constructor
  · intro r hr
    rcases mem_search_exists ctx st q k t r hr with ⟨c, _, hacc, hrc⟩
    have := ((accept_iff st t c).mp hacc).2.2
    rw [hrc]
    exact this
  · intro htt r hr
    rw [searchMemories_eq] at hr ⊢
    by_cases h : st.memories.length = 0
    · rw [if_pos h] at hr
      exact absurd hr (List.not_mem_nil r)
    · rw [if_neg h] at hr ⊢
      obtain ⟨n, hn⟩ := filter_raise_threshold st t t' htt
        (searchCandidates ctx st q k) (sorted_searchCandidates ctx st q k)
      rw [hn, List.map_take, List.take_take] at hr
      have hsub : (((searchCandidates ctx st q k).filter (accept st t)).map
          (mkRes st)).take (min (max k 1) n) ⊆
        (((searchCandidates ctx st q k).filter (accept st t)).map
          (mkRes st)).take (max k 1) := by
        intro a ha
        have hmin : min (min (max k 1) n) (max k 1) = min (max k 1) n := by omega
        rw [← hmin, ← List.take_take] at ha
        exact List.take_subset _ _ ha
      exact hsub hr

/-- Witness for C2 on a one-record store in model mode with thresholds
`1/2 ≤ 3/4`. -/
theorem threshold_floor_monotone_witness :
    (∀ r ∈ searchMemories ⟨true, 1, fun _ => [1]⟩
        ⟨["I live in Taipei"], [Meta.active 0 "" []], [0], 1, ∅, [[1]]⟩
        "where" 3 ((1 : ℚ) / 2), (1 : ℚ) / 2 ≤ r.score) ∧
    (∀ r ∈ searchMemories ⟨true, 1, fun _ => [1]⟩
        ⟨["I live in Taipei"], [Meta.active 0 "" []], [0], 1, ∅, [[1]]⟩
        "where" 3 ((3 : ℚ) / 4),
      r ∈ searchMemories ⟨true, 1, fun _ => [1]⟩
        ⟨["I live in Taipei"], [Meta.active 0 "" []], [0], 1, ∅, [[1]]⟩
        "where" 3 ((1 : ℚ) / 2)) :=
  ⟨(threshold_floor_monotone ⟨true, 1, fun _ => [1]⟩
      ⟨["I live in Taipei"], [Meta.active 0 "" []], [0], 1, ∅, [[1]]⟩
      "where" 3 ((1 : ℚ) / 2) ((3 : ℚ) / 4)).1,
   (threshold_floor_monotone ⟨true, 1, fun _ => [1]⟩
      ⟨["I live in Taipei"], [Meta.active 0 "" []], [0], 1, ∅, [[1]]⟩
      "where" 3 ((1 : ℚ) / 2) ((3 : ℚ) / 4)).2 (by norm_num)⟩

/-! Permanent exclusion of a soft-deleted id. -/

/-- Exclusion invariant for an id `x`: it is either gone from the id list
or marked deleted, and the id counter is already past it (so it can never
be handed out again). -/
def Excl (x : Nat) (st : MemState) : Prop :=
  (x ∉ st.memory_ids ∨ x ∈ st.deleted_ids) ∧ x < st.next_id

lemma excl_deleteById (x y : Nat) (st : MemState) (now : ℚ) (ns : String)
    (h : Excl x st) : Excl x (deleteById st y now ns).2 := by
  obtain ⟨hm, hn⟩ := h
  refine ⟨?_, by rwa [deleteById_next_id]⟩
  rw [deleteById_memory_ids]
  rcases hm with hm | hm
  · exact Or.inl hm
  · exact Or.inr (deleteById_deleted_sub st y now ns hm)

lemma excl_applyOp (ctx : Ctx) (x : Nat) (st : MemState) (op : Op)
    (h : Excl x st) : Excl x (applyOp ctx st op) := by
  obtain ⟨hm, hn⟩ := h
  cases op with
  | add text md now ns rand =>
    simp only [applyOp, addMemory]
    by_cases hs : pyStrip text = ""
    · simp only [if_pos hs]
      exact ⟨hm, hn⟩
    · simp only [if_neg hs]
      constructor
      · rcases hm with hm | hm
        · refine Or.inl ?_
          intro hmem
          rcases List.mem_append.mp hmem with h1 | h1
          · exact hm h1
          · simp only [List.mem_singleton] at h1
            omega
        · exact Or.inr hm
      · exact Nat.lt_succ_of_lt hn
  | delId y now ns => exact excl_deleteById x y st now ns ⟨hm, hn⟩
  | delContent q t now ns =>
    exact delContent_preserve now ns (Excl x)
      (fun s y hs => excl_deleteById x y s now ns hs) ctx st q t ⟨hm, hn⟩
  | delRecent hours now ns =>
    exact delRecent_preserve now ns (Excl x)
      (fun s y hs => excl_deleteById x y s now ns hs) st hours ⟨hm, hn⟩
  | cleanup rands =>
    by_cases hd : st.deleted_ids = ∅
    · have : applyOp ctx st (Op.cleanup rands) = st := by
        simp [applyOp, cleanupDeletedMemories, hd]
      rw [this]
      exact ⟨hm, hn⟩
    · have hnotdel : ∀ y ∈ (applyOp ctx st (Op.cleanup rands)).memory_ids,
          y ∉ st.deleted_ids := by
        intro y hy
        simp only [applyOp, cleanupDeletedMemories, if_neg hd] at hy
        rcases List.mem_map.mp hy with ⟨tr, htr, hty⟩
        have := (List.mem_filter.mp htr).2
        simp only [decide_eq_true_eq] at this
        exact hty ▸ this.1
      have hsub : ∀ y ∈ (applyOp ctx st (Op.cleanup rands)).memory_ids,
          y ∈ st.memory_ids := by
        intro y hy
        exact (cleanup_ids_sublist ctx st rands).subset hy
      have hnext : (applyOp ctx st (Op.cleanup rands)).next_id = st.next_id := by
        simp [applyOp, cleanupDeletedMemories, if_neg hd]
      refine ⟨Or.inl ?_, by rwa [hnext]⟩
      intro hmem
      rcases hm with hm | hm
      · exact hm (hsub x hmem)
      · exact hnotdel x hmem hm

lemma excl_applyOps (ctx : Ctx) (x : Nat) (st : MemState) (ops : List Op)
    (h : Excl x st) : Excl x (applyOps ctx st ops) := by
  induction ops generalizing st with
  | nil => exact h
  | cons op rest ih => exact ih _ (excl_applyOp ctx x st op h)

/-- A search on an aligned store never returns an excluded id. -/
lemma search_not_excluded (ctx : Ctx) (st : MemState) (x : Nat)
    (hA : Aligned st) (hE : Excl x st) (q : String) (k : Nat) (t : ℚ) :
    ∀ r ∈ searchMemories ctx st q k t, r.id ≠ x := by
  intro r hr hrx
  rcases mem_search_exists ctx st q k t r hr with ⟨c, _, hacc, hrc⟩
  rcases (accept_iff st t c).mp hacc with ⟨h1, h2, _⟩
  push_neg at h2
  have hlen : c.2 < st.memory_ids.length := by
    obtain ⟨_, hml, _⟩ := hA
    omega
  have hid : r.id = st.memory_ids.get ⟨c.2, hlen⟩ := by
    rw [hrc]
    show st.memory_ids.getD c.2 0 = _
    rw [List.getD_eq_getElem?_getD, List.getElem?_eq_getElem hlen]
    rfl
  have hmem : x ∈ st.memory_ids := by
    rw [← hrx, hid]
    exact List.get_mem _ _ hlen
  have hnotdel : x ∉ st.deleted_ids := by
    rw [← hrx, hid]
    have := h2.1
    rwa [List.getD_eq_getElem?_getD, List.getElem?_eq_getElem hlen] at this
  rcases hE.1 with h | h
  · exact h hmem
  · exact hnotdel h

/-- Claim C3 — Soft-delete exclusion: once `delete_memory_by_id(x)` has
returned `True` on a store reached from a fresh store, no later
`search_memories` call — in that state or any state reached by further
adds, deletes and cleanups — returns a result carrying id `x`. -/
theorem soft_delete_exclusion (ctx : Ctx) (ops₀ : List Op) (x : Nat)
    (now : ℚ) (ns : String) (ops₁ : List Op) (q : String) (k : Nat) (t : ℚ)
    (hdel : (deleteById (applyOps ctx initState ops₀) x now ns).1 = true) :
    ∀ r ∈ searchMemories ctx
        (applyOps ctx (deleteById (applyOps ctx initState ops₀) x now ns).2 ops₁)
        q k t, r.id ≠ x := by
  set st₀ := applyOps ctx initState ops₀ with hst₀
  have hmem : x ∈ st₀.memory_ids := by
    by_contra hx
    rw [deleteById_deleted_of_not_mem st₀ x now ns hx] at hdel
    simp at hdel
  have hwf := idswf_applyOps ctx initState ops₀ idswf_initState
  have hAl := aligned_applyOps ctx initState ops₀ aligned_initState
  have hE : Excl x (deleteById st₀ x now ns).2 := by
    constructor
    · rw [deleteById_deleted_of_mem st₀ x now ns hmem]
      exact Or.inr (Finset.mem_insert_self x _)
    · rw [deleteById_next_id]
      exact hwf.2 x hmem
  have hE' := excl_applyOps ctx x _ ops₁ hE
  have hAl' := aligned_applyOps ctx _ ops₁ (aligned_deleteById st₀ x now ns hAl)
  exact search_not_excluded ctx _ x hAl' hE' q k t

unseal List.merge List.mergeSort in
/-- Witness for C3: on a two-record store (with a trivial embedding) in
which id 0 is soft-deleted, a search that does return a hit returns one
whose id (here 1) is not the deleted id 0. -/
theorem soft_delete_exclusion_witness :
    (⟨1, "b", 0, Meta.active 0 "" [], 1⟩ : SearchResult) ∈
      searchMemories ⟨true, 1, fun _ => []⟩
        (applyOps ⟨true, 1, fun _ => []⟩
          (deleteById (applyOps ⟨true, 1, fun _ => []⟩ initState
            [Op.add "a" none 0 "" [], Op.add "b" none 0 "" []]) 0 1 "t").2 [])
        "b" 3 0 ∧
    (⟨1, "b", 0, Meta.active 0 "" [], 1⟩ : SearchResult).id ≠ 0 := by
  have hs : searchMemories ⟨true, 1, fun _ => []⟩
      (applyOps ⟨true, 1, fun _ => []⟩
        (deleteById (applyOps ⟨true, 1, fun _ => []⟩ initState
          [Op.add "a" none 0 "" [], Op.add "b" none 0 "" []]) 0 1 "t").2 [])
      "b" 3 0 = [⟨1, "b", 0, Meta.active 0 "" [], 1⟩] := rfl
  have hmem : (⟨1, "b", 0, Meta.active 0 "" [], 1⟩ : SearchResult) ∈
      searchMemories ⟨true, 1, fun _ => []⟩
        (applyOps ⟨true, 1, fun _ => []⟩
          (deleteById (applyOps ⟨true, 1, fun _ => []⟩ initState
            [Op.add "a" none 0 "" [], Op.add "b" none 0 "" []]) 0 1 "t").2 [])
        "b" 3 0 := by
    rw [hs]
    exact List.mem_singleton.mpr rfl
  exact ⟨hmem,
    soft_delete_exclusion ⟨true, 1, fun _ => []⟩
      [Op.add "a" none 0 "" [], Op.add "b" none 0 "" []] 0 1 "t" [] "b" 3 0
      (by decide) ⟨1, "b", 0, Meta.active 0 "" [], 1⟩ hmem⟩

/-- The (corrected) extraction rule for deletion targets: the remainder
after the matched keyword, whitespace-stripped, with leading characters
drawn from the set `關於about` (case-insensitively) removed, then leading
punctuation removed, whitespace-stripped again. -/
def strippedRemainder (text : String) (e : Nat) : List Char :=
  pyStripList (dropLeading (fun c => ("：:，,.。!！？?".data).contains c)
    (pyStripList (dropLeading (fun c => ("關於about".data).contains c.toLower)
      (pyStripList (text.data.drop e)))))

set_option maxHeartbeats 2000000 in
/-- Counterexample to claim C9 as stated: on `"forget tomatoes"` the
matched keyword is `forget` (match ends at position 6) and the remainder
`"tomatoes"` starts with no preposition, yet the detector returns target
`"matoes"`: the code strips leading characters belonging to the character
class `[關於about]` (here `t`, `o`), not a leading preposition word, so
the target differs from the remainder stripped of leading prepositions
and punctuation (`"tomatoes"`). -/
theorem deletion_target_counterexample :
    deletionPats.findSome? (fun p => matchEnd p "forget tomatoes") = some 6 ∧
    (detectDeletionRequest "forget tomatoes").target_content = some "matoes" ∧
    specTarget "forget tomatoes" 6 = some "tomatoes" ∧
    (detectDeletionRequest "forget tomatoes").target_content ≠
      specTarget "forget tomatoes" 6 := by
  refine ⟨by decide, by decide, by decide, by decide⟩

set_option maxHeartbeats 2000000 in
/-- Claim C9 (amended) — Deletion-target extraction: whenever a deletion
pattern matches, the detector reports a deletion request and the returned
target is the remainder after the matched keyword stripped of leading
characters from the character set `關於about` (case-insensitive) and of
leading punctuation, and it is `None` exactly when that stripped
remainder is empty. -/
theorem deletion_target_extraction (text : String) (e : Nat)
    (h : deletionPats.findSome? (fun p => matchEnd p text) = some e) :
    (detectDeletionRequest text).is_deletion_request = true ∧
    (detectDeletionRequest text).target_content =
      (if strippedRemainder text e = [] then none
       else some (String.mk (strippedRemainder text e))) ∧
    ((detectDeletionRequest text).target_content = none ↔
      strippedRemainder text e = []) := by
  unfold detectDeletionRequest
  rw [h]
  have htgt : extractDeletionTarget text e =
      (if strippedRemainder text e = [] then none
       else some (String.mk (strippedRemainder text e))) := by
    unfold extractDeletionTarget strippedRemainder
    rfl
  refine ⟨rfl, htgt, ?_⟩
  show extractDeletionTarget text e = none ↔ _
  rw [htgt]
  by_cases hm : strippedRemainder text e = [] <;> simp [hm]

set_option maxHeartbeats 2000000 in
/-- Witness for C9 (amended) on `"delete all"`: the keyword `delete`
matches with end position 6 and the target is `"ll"` (the leading `a` is
in the stripped character class). -/
theorem deletion_target_extraction_witness :
    (detectDeletionRequest "delete all").is_deletion_request = true ∧
    (detectDeletionRequest "delete all").target_content =
      (if strippedRemainder "delete all" 6 = [] then none
       else some (String.mk (strippedRemainder "delete all" 6))) ∧
    ((detectDeletionRequest "delete all").target_content = none ↔
      strippedRemainder "delete all" 6 = []) :=
  deletion_target_extraction "delete all" 6 (by decide)

/-! Accounting of the ids soft-deleted by one `process_deletion_request`
call. -/

lemma deleteById_fst_iff (st : MemState) (x : Nat) (now : ℚ) (ns : String) :
    (deleteById st x now ns).1 = true ↔ x ∈ st.memory_ids := by
  constructor
  · intro h
    by_contra hx
    rw [deleteById_deleted_of_not_mem st x now ns hx] at h
    simp at h
  · exact deleteById_fst_true st x now ns

lemma foldDel_deleted (now : ℚ) (ns : String) :
    ∀ (l : List Nat) (s : MemState), (∀ x ∈ l, x ∈ s.memory_ids) →
      (l.foldl (fun s2 mid => (deleteById s2 mid now ns).2) s).deleted_ids =
        s.deleted_ids ∪ l.toFinset := by
  intro l
  induction l with
  | nil => intro s _; simp
  | cons x rest ih =>
    intro s hl
    have hx : x ∈ s.memory_ids := hl x (List.mem_cons_self x rest)
    have hrest : ∀ y ∈ rest, y ∈ (deleteById s x now ns).2.memory_ids := by
      intro y hy
      rw [deleteById_memory_ids]
      exact hl y (List.mem_cons_of_mem x hy)
    show (rest.foldl _ (deleteById s x now ns).2).deleted_ids = _
    rw [ih _ hrest, deleteById_deleted_of_mem s x now ns hx]
    rw [List.toFinset_cons, Finset.insert_union, Finset.union_insert]

lemma delAll_spec (st : MemState) (now : ℚ) (ns : String) :
    (deleteAllMemories st now ns).2.deleted_ids =
      st.deleted_ids ∪ (deleteAllMemories st now ns).1.toFinset ∧
    ∀ x ∈ (deleteAllMemories st now ns).1, x ∉ st.deleted_ids := by
  constructor
  · show (((st.memory_ids.filter (fun mid => mid ∉ st.deleted_ids))).foldl
        (fun s mid => (deleteById s mid now ns).2) st).deleted_ids = _
    exact foldDel_deleted now ns _ st (fun x hx => (List.mem_filter.mp hx).1)
  · intro x hx
    have := (List.mem_filter.mp hx).2
    simpa using this

/-- Invariant of the deletion loops that append the deleted id on each
successful soft delete: the deleted set grows by exactly the collected
ids, and every collected id was not deleted before the call. -/
lemma delRecentAux (now : ℚ) (ns : String) (cutoff : ℚ)
    (f : List Nat × MemState → Nat × Meta → List Nat × MemState)
    (hf : ∀ p im, f p im =
      if im.1 ∈ p.2.deleted_ids then p
      else if cutoff < im.2.tsGet then
        (if (deleteById p.2 im.1 now ns).1 then p.1 ++ [im.1] else p.1,
          (deleteById p.2 im.1 now ns).2)
      else p) :
    ∀ (l : List (Nat × Meta)) (acc : List Nat) (s : MemState) (D : Finset Nat),
      s.deleted_ids = D ∪ acc.toFinset → (∀ x ∈ acc, x ∉ D) →
      (l.foldl f (acc, s)).2.deleted_ids = D ∪ (l.foldl f (acc, s)).1.toFinset ∧
      ∀ x ∈ (l.foldl f (acc, s)).1, x ∉ D := by
  intro l
  induction l with
  | nil =>
    intro acc s D h1 h2
    exact ⟨h1, h2⟩
  | cons im rest ih =>
    intro acc s D h1 h2
    rw [List.foldl_cons, hf]
    by_cases hdel : im.1 ∈ s.deleted_ids
    · rw [if_pos hdel]
      exact ih acc s D h1 h2
    · rw [if_neg hdel]
      by_cases hts : cutoff < im.2.tsGet
      · rw [if_pos hts]
        by_cases hmem : im.1 ∈ s.memory_ids
        · rw [if_pos ((deleteById_fst_iff s im.1 now ns).mpr hmem)]
          have hnotD : im.1 ∉ D := by
            intro hD
            exact hdel (h1 ▸ Finset.mem_union_left _ hD)
          apply ih
          · rw [deleteById_deleted_of_mem s im.1 now ns hmem, h1]
            ext a
            simp only [List.toFinset_append, List.toFinset_cons,
              List.toFinset_nil, Finset.mem_insert, Finset.mem_union,
              Finset.not_mem_empty, Finset.mem_singleton]
            tauto
          · intro x hx
            rcases List.mem_append.mp hx with hx | hx
            · exact h2 x hx
            · simp only [List.mem_singleton] at hx
              exact hx ▸ hnotD
        · have hfst : (deleteById s im.1 now ns).1 = false := by
            rw [deleteById_deleted_of_not_mem s im.1 now ns hmem]
          rw [hfst]
          simp only [Bool.false_eq_true, if_false]
          rw [deleteById_deleted_of_not_mem s im.1 now ns hmem]
          exact ih acc s D h1 h2
      · rw [if_neg hts]
        exact ih acc s D h1 h2

lemma delRecent_spec (st : MemState) (hours : Nat) (now : ℚ) (ns : String) :
    (deleteRecentMemories st hours now ns).2.deleted_ids =
      st.deleted_ids ∪ (deleteRecentMemories st hours now ns).1.toFinset ∧
    ∀ x ∈ (deleteRecentMemories st hours now ns).1, x ∉ st.deleted_ids := by
  unfold deleteRecentMemories
  exact delRecentAux now ns (now - (hours : ℚ) * 3600) _ (fun p im => rfl)
    (st.memory_ids.zip st.metadata) [] st st.deleted_ids (by simp) (by simp)

/-- Same invariant for the loop of `delete_memories_by_content`, which
recomputes the id of each hit from the live id list. -/
lemma delContentAux (now : ℚ) (ns : String)
    (f : List Nat × MemState → SearchResult → List Nat × MemState)
    (hf : ∀ p r, f p r =
      (if (deleteById p.2 (p.2.memory_ids.getD r.index 0) now ns).1
        then p.1 ++ [p.2.memory_ids.getD r.index 0] else p.1,
       (deleteById p.2 (p.2.memory_ids.getD r.index 0) now ns).2)) :
    ∀ (hits : List SearchResult) (acc : List Nat) (s : MemState)
      (D : Finset Nat) (ids0 : List Nat),
      s.memory_ids = ids0 → s.deleted_ids = D ∪ acc.toFinset →
      (∀ x ∈ acc, x ∉ D) → (∀ r ∈ hits, ids0.getD r.index 0 ∉ D) →
      (hits.foldl f (acc, s)).2.deleted_ids =
        D ∪ (hits.foldl f (acc, s)).1.toFinset ∧
      ∀ x ∈ (hits.foldl f (acc, s)).1, x ∉ D := by
  intro hits
  induction hits with
  | nil =>
    intro acc s D ids0 _ h1 h2 _
    exact ⟨h1, h2⟩
  | cons r rest ih =>
    intro acc s D ids0 hids h1 h2 hhits
    rw [List.foldl_cons, hf]
    have hmid : s.memory_ids.getD r.index 0 = ids0.getD r.index 0 := by rw [hids]
    have hnotD : s.memory_ids.getD r.index 0 ∉ D := by
      rw [hmid]
      exact hhits r (List.mem_cons_self r rest)
    have hrest : ∀ r2 ∈ rest, ids0.getD r2.index 0 ∉ D :=
      fun r2 hr2 => hhits r2 (List.mem_cons_of_mem r hr2)
    by_cases hmem : s.memory_ids.getD r.index 0 ∈ s.memory_ids
    · rw [if_pos ((deleteById_fst_iff s (s.memory_ids.getD r.index 0) now ns).mpr hmem)]
      apply ih
      · rw [deleteById_memory_ids, hids]
      · rw [deleteById_deleted_of_mem s (s.memory_ids.getD r.index 0) now ns hmem, h1]
        ext a
        simp only [List.toFinset_append, List.toFinset_cons,
          List.toFinset_nil, Finset.mem_insert, Finset.mem_union,
          Finset.not_mem_empty, Finset.mem_singleton]
        tauto
      · intro x hx
        rcases List.mem_append.mp hx with hx | hx
        · exact h2 x hx
        · simp only [List.mem_singleton] at hx
          exact hx ▸ hnotD
      · exact hrest
    · have hfst : (deleteById s (s.memory_ids.getD r.index 0) now ns).1 = false := by
        rw [deleteById_deleted_of_not_mem s (s.memory_ids.getD r.index 0) now ns hmem]
      rw [hfst]
      simp only [Bool.false_eq_true, if_false]
      rw [deleteById_deleted_of_not_mem s (s.memory_ids.getD r.index 0) now ns hmem]
      exact ih acc s D ids0 hids h1 h2 hrest

lemma delContent_spec (ctx : Ctx) (st : MemState) (q : String) (t : ℚ)
    (now : ℚ) (ns : String) :
    (deleteMemoriesByContent ctx st q t now ns).2.deleted_ids =
      st.deleted_ids ∪ (deleteMemoriesByContent ctx st q t now ns).1.toFinset ∧
    ∀ x ∈ (deleteMemoriesByContent ctx st q t now ns).1,
      x ∉ st.deleted_ids := by
  unfold deleteMemoriesByContent
  apply delContentAux now ns _ (fun p r => rfl) (searchMemories ctx st q 10 t)
    [] st st.deleted_ids st.memory_ids rfl (by simp) (by simp)
  intro r hr
  rcases mem_search_exists ctx st q 10 t r hr with ⟨c, _, hacc, hrc⟩
  rcases (accept_iff st t c).mp hacc with ⟨_, h2, _⟩
  push_neg at h2
  have : r.index = c.2 := by rw [hrc]; rfl
  rw [this]
  exact h2.1

/-- The branch part of `process_deletion_request` reports, as
`deleted_count`, exactly the number of ids it newly soft-deleted, and it
never reports an id that was already soft-deleted. -/
lemma processDeletionCore_spec (ctx : Ctx) (st : MemState) (input : String)
    (now : ℚ) (ns : String) :
    (processDeletionCore ctx st input now ns).2.deleted_ids =
      st.deleted_ids ∪
        ((processDeletionCore ctx st input now ns).1.deleted_ids).toFinset ∧
    (∀ x ∈ (processDeletionCore ctx st input now ns).1.deleted_ids,
      x ∉ st.deleted_ids) ∧
    (processDeletionCore ctx st input now ns).1.deleted_count =
      (processDeletionCore ctx st input now ns).1.deleted_ids.length := by
  unfold processDeletionCore
  by_cases h1 : ¬ (detectDeletionRequest input).is_deletion_request = true
  · rw [if_pos h1]
    exact ⟨by simp, by simp, rfl⟩
  · rw [if_neg h1]
    by_cases h2 : (detectDeletionRequest input).deletion_scope = "all"
    · rw [if_pos h2]
      obtain ⟨ha, hb⟩ := delAll_spec st now ns
      exact ⟨ha, hb, rfl⟩
    · rw [if_neg h2]
      by_cases h3 : (detectDeletionRequest input).deletion_scope = "recent"
      · rw [if_pos h3]
        obtain ⟨ha, hb⟩ := delRecent_spec st 24 now ns
        exact ⟨ha, hb, rfl⟩
      · rw [if_neg h3]
        cases htc : (detectDeletionRequest input).target_content with
        | some tgt =>
          obtain ⟨ha, hb⟩ := delContent_spec ctx st tgt ((7 : ℚ) / 10) now ns
          exact ⟨ha, hb, rfl⟩
        | none => exact ⟨by simp, by simp, rfl⟩

/-- Claim C7 — Deletion batching and no-request atomicity:
`process_deletion_request` ends in the state produced by running
`cleanup_deleted_memories` on the post-deletion state exactly when its
reported count is positive, and that count is positive precisely when at
least one record was newly soft-deleted during the call (the deleted-id
set strictly grew); when the detector reports no deletion request, the
result has `success = false` and the store is returned unchanged. -/
theorem deletion_batching (ctx : Ctx) (st : MemState) (input : String)
    (now : ℚ) (ns : String) (rands : Nat → List ℚ) :
    ((0 < (processDeletionCore ctx st input now ns).1.deleted_count) ↔
      st.deleted_ids ⊂ (processDeletionCore ctx st input now ns).2.deleted_ids) ∧
    (processDeletionRequest ctx st input now ns rands).2 =
      (if 0 < (processDeletionCore ctx st input now ns).1.deleted_count
       then cleanupDeletedMemories ctx
          (processDeletionCore ctx st input now ns).2 rands
       else (processDeletionCore ctx st input now ns).2) ∧
    (processDeletionRequest ctx st input now ns rands).1 =
      (processDeletionCore ctx st input now ns).1 ∧
    ((detectDeletionRequest input).is_deletion_request = false →
      (processDeletionRequest ctx st input now ns rands).1.success = false ∧
      (processDeletionRequest ctx st input now ns rands).2 = st) := by
  obtain ⟨hU, hD, hC⟩ := processDeletionCore_spec ctx st input now ns
  refine ⟨?_, rfl, rfl, ?_⟩
  · constructor
    · intro hpos
      rw [hC] at hpos
      rcases List.exists_mem_of_length_pos hpos with ⟨a, ha⟩
      rw [hU]
      rw [Finset.ssubset_iff_of_subset (Finset.subset_union_left)]
      exact ⟨a, Finset.mem_union_right _ (List.mem_toFinset.mpr ha), hD a ha⟩
    · intro hss
      by_contra hz
      push_neg at hz
      rw [hC] at hz
      have hnil : (processDeletionCore ctx st input now ns).1.deleted_ids = [] :=
        List.eq_nil_of_length_eq_zero (Nat.le_zero.mp hz)
      rw [hU, hnil] at hss
      simp only [List.toFinset_nil, Finset.union_empty] at hss
      exact (ssubset_irrefl _) hss
  · intro hfalse
    have hcore : processDeletionCore ctx st input now ns =
        (⟨false, "未檢測到刪除請求", 0, []⟩, st) := by
      unfold processDeletionCore
      rw [if_pos (by simp [hfalse])]
    constructor
    · show (processDeletionRequest ctx st input now ns rands).1.success = false
      unfold processDeletionRequest
      rw [hcore]
    · show (processDeletionRequest ctx st input now ns rands).2 = st
      unfold processDeletionRequest
      rw [hcore]
      simp

/-- Witness for C7 at the non-deletion utterance `"hello"`: the call
fails with `success = false` and the store is untouched. -/
theorem deletion_batching_witness :
    (processDeletionRequest ⟨false, 1, fun _ => []⟩ initState "hello" 0 ""
        (fun _ => [])).1.success = false ∧
    (processDeletionRequest ⟨false, 1, fun _ => []⟩ initState "hello" 0 ""
        (fun _ => [])).2 = initState :=
  (deletion_batching ⟨false, 1, fun _ => []⟩ initState "hello" 0 ""
      (fun _ => [])).2.2.2 (by decide)

end TablePet
